import Mathlib

/-!
Verification development for the loop-carry elimination pass
(`src/src/LoopCarry.cpp`).  The IR data model and the collaborator
contracts (simplifier, CSE, solver, IR constructors) follow the
specification; the pass itself (`is_linear`, `step_forwards`, load
discovery and grouping, carry-edge detection, chain agglomeration,
budget trimming, code synthesis, driver) is translated from the source.
Machine `size_t` arithmetic is modelled as arithmetic modulo 2^64.
-/

set_option maxHeartbeats 1000000

namespace HalideIR

/-- Base numeric kind of an IR scalar type. -/
inductive TyBase
  | int
  | uint
  | float
  deriving DecidableEq, Repr

/-- An IR type: base kind, bit width, vector lanes (1 = scalar). -/
structure Ty where
  base : TyBase
  bits : Nat
  lanes : Nat
  deriving DecidableEq, Repr

/-- `Int(32)`, the only type `is_linear` accepts. -/
def i32 : Ty := ⟨TyBase.int, 32, 1⟩

/-- `UInt(1)`, the type of scalar boolean constants. -/
def u1 : Ty := ⟨TyBase.uint, 1, 1⟩

/-- `t.element_of()`: the scalar version of a (possibly vector) type. -/
def Ty.elementOf (t : Ty) : Ty := ⟨t.base, t.bits, 1⟩

/-- `t.is_scalar()`. -/
def Ty.isScalar (t : Ty) : Bool := t.lanes = 1

/-- Loop kinds of a `For` stmt (spec §3: for-type ∈ Serial, Parallel, …). -/
inductive ForType
  | serial
  | parallel
  | vectorized
  | unrolled
  deriving DecidableEq, Repr

/-- Memory classes for `Allocate` (only Stack is used by the pass). -/
inductive MemTy
  | stack
  | heap
  deriving DecidableEq, Repr

/-- Expression IR (spec §3 data model).  A `load` carries its buffer name,
index, predicate, and the two read-only tags (bound image / parameter)
that the safety filter of the pass inspects.  Argument lists (of `call`
nodes and of `Allocate` extents) are encoded with the two cons-cell
constructors `argNil`/`argCons` so that structural equality is
derivable. -/
inductive Expr
  | var (ty : Ty) (name : String)
  | intImm (ty : Ty) (v : Int)
  | uintImm (ty : Ty) (v : Nat)
  | add (a b : Expr)
  | sub (a b : Expr)
  | mul (a b : Expr)
  | ramp (base stride : Expr) (lanes : Nat)
  | broadcast (value : Expr) (lanes : Nat)
  | load (ty : Ty) (name : String) (index pred : Expr) (image param : Bool)
  | letE (name : String) (value body : Expr)
  | call (ty : Ty) (name : String) (args : Expr)
  | eqE (a b : Expr)
  | gtE (a b : Expr)
  | argNil
  | argCons (head tail : Expr)
  deriving DecidableEq, Repr

/-- Build an encoded argument list. -/
def argsOfList : List Expr → Expr
  | [] => Expr.argNil
  | a :: rest => Expr.argCons a (argsOfList rest)

/-- Decode an encoded argument list (non-cells decode as `[]`). -/
def listOfArgs : Expr → List Expr
  | .argCons a rest => a :: listOfArgs rest
  | _ => []

/-- Statement IR (spec §3 data model).  `block` is the right-associative
pair form; an `IfThenElse` with an undefined else branch is the separate
constructor `ifThenElse`. -/
inductive Stmt
  | store (name : String) (value index pred : Expr)
  | letStmt (name : String) (value : Expr) (body : Stmt)
  | block (first rest : Stmt)
  | forS (name : String) (min extent : Expr) (ftype : ForType) (body : Stmt)
  | ifThenElse (cond : Expr) (thenC : Stmt)
  | ifThenElseE (cond : Expr) (thenC elseC : Stmt)
  | producerConsumer (name : String) (isProducer : Bool) (body : Stmt)
  | allocate (name : String) (ty : Ty) (mem : MemTy) (extents : Expr)
      (cond : Expr) (body : Stmt)
  deriving DecidableEq, Repr

/-- The static type of an expression. -/
def Expr.typeOf : Expr → Ty
  | .var t _ => t
  | .intImm t _ => t
  | .uintImm t _ => t
  | .add a _ => a.typeOf
  | .sub a _ => a.typeOf
  | .mul a _ => a.typeOf
  | .ramp b _ l => ⟨b.typeOf.base, b.typeOf.bits, l⟩
  | .broadcast v l => ⟨v.typeOf.base, v.typeOf.bits, l⟩
  | .load t _ _ _ _ _ => t
  | .letE _ _ b => b.typeOf
  | .call t _ _ => t
  | .eqE a _ => ⟨TyBase.uint, 1, a.typeOf.lanes⟩
  | .gtE a _ => ⟨TyBase.uint, 1, a.typeOf.lanes⟩
  | .argNil => u1
  | .argCons _ _ => u1

/-- `make_zero` for an integer type. -/
def makeZero (t : Ty) : Expr := Expr.intImm t 0

/-- `is_const_zero`: a literal zero (also under broadcast). -/
def isConstZero : Expr → Bool
  | .intImm _ v => v = 0
  | .uintImm _ v => v = 0
  | .broadcast v _ => isConstZero v
  | _ => false

/-- `is_const_one`: a literal one (also under broadcast). -/
def isConstOne : Expr → Bool
  | .intImm _ v => v = 1
  | .uintImm _ v => v = 1
  | .broadcast v _ => isConstOne v
  | _ => false

/-- `const_true(lanes)`: the all-true boolean of the given lane count. -/
def constTrue (lanes : Nat) : Expr :=
  if lanes = 1 then Expr.uintImm u1 1
  else Expr.broadcast (Expr.uintImm u1 1) lanes

/-- `scratch_index(i, t)` from the source: element `i` for scalars, the
ramp `[i·lanes, …]` for vectors. -/
def scratch_index (i : Nat) (t : Ty) : Expr :=
  if t.isScalar then Expr.intImm i32 i
  else Expr.ramp (Expr.intImm i32 (i * t.lanes)) (Expr.intImm i32 1) t.lanes

/-- Unpack a block into its component stmts (`block_to_vector`). -/
def block_to_vector : Stmt → List Stmt
  | .block f r => block_to_vector f ++ block_to_vector r
  | s => [s]

/-- `Block::make(first, rest)`.  Modelled from the spec: a `Block` is an
ordered sequence kept in right-associative pair form, so a block first
argument is re-associated. -/
def blockMake2 : Stmt → Stmt → Stmt
  | .block f r, rest => Stmt.block f (blockMake2 r rest)
  | s, rest => Stmt.block s rest

/-- `Block::make(vector)`.  Modelled from the spec: an empty sequence has
no Block representation, which we model as `none` (an undefined stmt
handle, which the downstream constructors reject). -/
def blockMakeList : List Stmt → Option Stmt
  | [] => none
  | [s] => some s
  | s :: rest => (blockMakeList rest).map (blockMake2 s)

/-- Size measure on statements, used for termination of the rewriter. -/
def Stmt.ssize : Stmt → Nat
  | .store _ _ _ _ => 1
  | .letStmt _ _ b => 1 + b.ssize
  | .block f r => 1 + f.ssize + r.ssize
  | .forS _ _ _ _ b => 1 + b.ssize
  | .ifThenElse _ t => 1 + t.ssize
  | .ifThenElseE _ t e => 1 + t.ssize + e.ssize
  | .producerConsumer _ _ b => 1 + b.ssize
  | .allocate _ _ _ _ _ b => 1 + b.ssize

/-- Name-based substitution in an expression (`substitute(name, repl, e)`).
Modelled from the spec: replaces free occurrences of the variable,
respecting `Let` shadowing. -/
def substVarE (n : String) (r : Expr) : Expr → Expr
  | .var t nm => if nm = n then r else .var t nm
  | .intImm t v => .intImm t v
  | .uintImm t v => .uintImm t v
  | .add a b => .add (substVarE n r a) (substVarE n r b)
  | .sub a b => .sub (substVarE n r a) (substVarE n r b)
  | .mul a b => .mul (substVarE n r a) (substVarE n r b)
  | .ramp b s l => .ramp (substVarE n r b) (substVarE n r s) l
  | .broadcast v l => .broadcast (substVarE n r v) l
  | .load t nm i p im pa => .load t nm (substVarE n r i) (substVarE n r p) im pa
  | .letE nm v b =>
      if nm = n then .letE nm (substVarE n r v) b
      else .letE nm (substVarE n r v) (substVarE n r b)
  | .call t nm args => .call t nm (substVarE n r args)
  | .eqE a b => .eqE (substVarE n r a) (substVarE n r b)
  | .gtE a b => .gtE (substVarE n r a) (substVarE n r b)
  | .argNil => .argNil
  | .argCons a rest => .argCons (substVarE n r a) (substVarE n r rest)

/-- Name-based substitution in a statement (`substitute(name, repl, s)`).
Modelled from the spec, respecting `LetStmt` and `For` shadowing. -/
def substVarStmt (n : String) (r : Expr) : Stmt → Stmt
  | .store nm v i p => .store nm (substVarE n r v) (substVarE n r i) (substVarE n r p)
  | .letStmt nm v b =>
      if nm = n then .letStmt nm (substVarE n r v) b
      else .letStmt nm (substVarE n r v) (substVarStmt n r b)
  | .block f rst => .block (substVarStmt n r f) (substVarStmt n r rst)
  | .forS nm mn ex ft b =>
      if nm = n then .forS nm (substVarE n r mn) (substVarE n r ex) ft b
      else .forS nm (substVarE n r mn) (substVarE n r ex) ft (substVarStmt n r b)
  | .ifThenElse c t => .ifThenElse (substVarE n r c) (substVarStmt n r t)
  | .ifThenElseE c t e => .ifThenElseE (substVarE n r c) (substVarStmt n r t) (substVarStmt n r e)
  | .producerConsumer nm ip b => .producerConsumer nm ip (substVarStmt n r b)
  | .allocate nm t m ex c b =>
      .allocate nm t m (substVarE n r ex) (substVarE n r c) (substVarStmt n r b)

/-- `substitute_in_all_lets` on expressions.  Modelled from the spec:
eliminates every `Let` by inlining its (already let-free) value. -/
def subLetsE : Expr → Expr
  | .var t nm => .var t nm
  | .intImm t v => .intImm t v
  | .uintImm t v => .uintImm t v
  | .add a b => .add (subLetsE a) (subLetsE b)
  | .sub a b => .sub (subLetsE a) (subLetsE b)
  | .mul a b => .mul (subLetsE a) (subLetsE b)
  | .ramp b s l => .ramp (subLetsE b) (subLetsE s) l
  | .broadcast v l => .broadcast (subLetsE v) l
  | .load t nm i p im pa => .load t nm (subLetsE i) (subLetsE p) im pa
  | .letE nm v b => substVarE nm (subLetsE v) (subLetsE b)
  | .call t nm args => .call t nm (subLetsE args)
  | .eqE a b => .eqE (subLetsE a) (subLetsE b)
  | .gtE a b => .gtE (subLetsE a) (subLetsE b)
  | .argNil => .argNil
  | .argCons a rest => .argCons (subLetsE a) (subLetsE rest)

/-- `substitute_in_all_lets` on statements.  Modelled from the spec. -/
def subLetsStmt : Stmt → Stmt
  | .store nm v i p => .store nm (subLetsE v) (subLetsE i) (subLetsE p)
  | .letStmt nm v b => substVarStmt nm (subLetsE v) (subLetsStmt b)
  | .block f rst => .block (subLetsStmt f) (subLetsStmt rst)
  | .forS nm mn ex ft b => .forS nm (subLetsE mn) (subLetsE ex) ft (subLetsStmt b)
  | .ifThenElse c t => .ifThenElse (subLetsE c) (subLetsStmt t)
  | .ifThenElseE c t e => .ifThenElseE (subLetsE c) (subLetsStmt t) (subLetsStmt e)
  | .producerConsumer nm ip b => .producerConsumer nm ip (subLetsStmt b)
  | .allocate nm t m ex c b => .allocate nm t m (subLetsE ex) (subLetsE c) (subLetsStmt b)

/-- `graph_substitute(needle, repl, e)`: identity-based substitution; in
the tree embedding this replaces every subtree structurally equal to the
needle, without descending into the replacement. -/
def replaceExprE (needle repl : Expr) : Expr → Expr
  | .var t nm => if Expr.var t nm = needle then repl else .var t nm
  | .intImm t v => if Expr.intImm t v = needle then repl else .intImm t v
  | .uintImm t v => if Expr.uintImm t v = needle then repl else .uintImm t v
  | .add a b =>
      if Expr.add a b = needle then repl
      else .add (replaceExprE needle repl a) (replaceExprE needle repl b)
  | .sub a b =>
      if Expr.sub a b = needle then repl
      else .sub (replaceExprE needle repl a) (replaceExprE needle repl b)
  | .mul a b =>
      if Expr.mul a b = needle then repl
      else .mul (replaceExprE needle repl a) (replaceExprE needle repl b)
  | .ramp b s l =>
      if Expr.ramp b s l = needle then repl
      else .ramp (replaceExprE needle repl b) (replaceExprE needle repl s) l
  | .broadcast v l =>
      if Expr.broadcast v l = needle then repl
      else .broadcast (replaceExprE needle repl v) l
  | .load t nm i p im pa =>
      if Expr.load t nm i p im pa = needle then repl
      else .load t nm (replaceExprE needle repl i) (replaceExprE needle repl p) im pa
  | .letE nm v b =>
      if Expr.letE nm v b = needle then repl
      else .letE nm (replaceExprE needle repl v) (replaceExprE needle repl b)
  | .call t nm args =>
      if Expr.call t nm args = needle then repl
      else .call t nm (replaceExprE needle repl args)
  | .eqE a b =>
      if Expr.eqE a b = needle then repl
      else .eqE (replaceExprE needle repl a) (replaceExprE needle repl b)
  | .gtE a b =>
      if Expr.gtE a b = needle then repl
      else .gtE (replaceExprE needle repl a) (replaceExprE needle repl b)
  | .argNil => if Expr.argNil = needle then repl else .argNil
  | .argCons a rest =>
      if Expr.argCons a rest = needle then repl
      else .argCons (replaceExprE needle repl a) (replaceExprE needle repl rest)

/-- `graph_substitute` over a statement: rewrites every expression
position, leaving the statement skeleton untouched. -/
def replaceExprInStmt (needle repl : Expr) : Stmt → Stmt
  | .store nm v i p =>
      .store nm (replaceExprE needle repl v) (replaceExprE needle repl i)
        (replaceExprE needle repl p)
  | .letStmt nm v b => .letStmt nm (replaceExprE needle repl v) (replaceExprInStmt needle repl b)
  | .block f rst => .block (replaceExprInStmt needle repl f) (replaceExprInStmt needle repl rst)
  | .forS nm mn ex ft b =>
      .forS nm (replaceExprE needle repl mn) (replaceExprE needle repl ex) ft
        (replaceExprInStmt needle repl b)
  | .ifThenElse c t => .ifThenElse (replaceExprE needle repl c) (replaceExprInStmt needle repl t)
  | .ifThenElseE c t e =>
      .ifThenElseE (replaceExprE needle repl c) (replaceExprInStmt needle repl t)
        (replaceExprInStmt needle repl e)
  | .producerConsumer nm ip b => .producerConsumer nm ip (replaceExprInStmt needle repl b)
  | .allocate nm t m ex c b =>
      .allocate nm t m (replaceExprE needle repl ex) (replaceExprE needle repl c)
        (replaceExprInStmt needle repl b)

/-- `expr_uses_var(e, name)`: free-variable test.  Modelled from the spec. -/
def exprUsesVar (n : String) : Expr → Bool
  | .var _ nm => nm = n
  | .intImm _ _ => false
  | .uintImm _ _ => false
  | .add a b => exprUsesVar n a || exprUsesVar n b
  | .sub a b => exprUsesVar n a || exprUsesVar n b
  | .mul a b => exprUsesVar n a || exprUsesVar n b
  | .ramp b s _ => exprUsesVar n b || exprUsesVar n s
  | .broadcast v _ => exprUsesVar n v
  | .load _ _ i p _ _ => exprUsesVar n i || exprUsesVar n p
  | .letE nm v b => exprUsesVar n v || (if nm = n then false else exprUsesVar n b)
  | .call _ _ args => exprUsesVar n args
  | .eqE a b => exprUsesVar n a || exprUsesVar n b
  | .gtE a b => exprUsesVar n a || exprUsesVar n b
  | .argNil => false
  | .argCons a rest => exprUsesVar n a || exprUsesVar n rest

/-- `stmt_uses_var(s, name)`: free-variable test.  Modelled from the spec. -/
def stmtUsesVar (n : String) : Stmt → Bool
  | .store _ v i p => exprUsesVar n v || exprUsesVar n i || exprUsesVar n p
  | .letStmt nm v b => exprUsesVar n v || (if nm = n then false else stmtUsesVar n b)
  | .block f rst => stmtUsesVar n f || stmtUsesVar n rst
  | .forS nm mn ex _ b =>
      exprUsesVar n mn || exprUsesVar n ex || (if nm = n then false else stmtUsesVar n b)
  | .ifThenElse c t => exprUsesVar n c || stmtUsesVar n t
  | .ifThenElseE c t e => exprUsesVar n c || stmtUsesVar n t || stmtUsesVar n e
  | .producerConsumer _ _ b => stmtUsesVar n b
  | .allocate _ _ _ ex c b => exprUsesVar n ex || exprUsesVar n c || stmtUsesVar n b

/-- Modelled from the spec: `common_subexpression_elimination(expr)` must
only introduce semantics-preserving sharing `Let`s; we take the
degenerate instance that introduces none (the identity). -/
def cseModel : Expr → Expr := fun e => e

/-- Modelled from the spec: `common_subexpression_elimination(stmt)`,
degenerate identity instance. -/
def cseStmtModel : Stmt → Stmt := fun s => s

/-- Modelled from the spec: `simplify(expr)` is an idempotent algebraic
simplification; we take the degenerate identity instance. -/
def simplifyModel : Expr → Expr := fun e => e

/-- Modelled from the spec: `can_prove` is a best-effort prover that may
return `false` for true propositions but never the reverse; this is the
maximally conservative instance. -/
def canProveModel : Expr → Bool := fun _ => false

/-- The linear scope: innermost-first bindings from variable names to a
defined symbolic step, or `none` for "shadowed as non-linear"
(`Scope<Expr>` with possibly-undefined entries). -/
abbrev LinScope := List (String × Option Expr)

/-- Look up the innermost binding of a name in a linear scope. -/
def scopeGet (sc : LinScope) (n : String) : Option (Option Expr) :=
  match sc with
  | [] => none
  | (m, v) :: rest => if m = n then some v else scopeGet rest n

/-- `is_linear(e, scope)` from the source: if an integer expression varies
linearly with the variables in the scope, return the linear term,
otherwise `none` (an undefined Expr). -/
def is_linear (e : Expr) (linear : LinScope) : Option Expr :=
  if e.typeOf ≠ i32 then none else
  match e with
  | .var t nm =>
      match scopeGet linear nm with
      | some step => step
      | none => some (makeZero t)
  | .intImm t _ => some (makeZero t)
  | .add a b =>
      let la := is_linear a linear
      let lb := is_linear b linear
      if lb.elim false isConstZero then la
      else if la.elim false isConstZero then lb
      else match la, lb with
        | some xa, some xb => some (.add xa xb)
        | _, _ => none
  | .sub a b =>
      let la := is_linear a linear
      let lb := is_linear b linear
      if lb.elim false isConstZero then la
      else match la, lb with
        | some xa, some xb => some (.sub xa xb)
        | _, _ => none
  | .mul a b =>
      let la := is_linear a linear
      let lb := is_linear b linear
      if la.elim false isConstZero && lb.elim false isConstZero then la
      else if la.elim false isConstZero then
        match lb with
        | some xb => some (.mul a xb)
        | none => none
      else if lb.elim false isConstZero then
        match la with
        | some xa => some (.mul xa b)
        | none => none
      else none
  | .ramp base stride _ =>
      let la := is_linear base linear
      let lb := is_linear stride linear
      if lb.elim false isConstZero then la else none
  | .broadcast v _ => is_linear v linear
  | _ => none

/-- The mutation performed by `StepForwards`: advance every linearly
moving variable by its step; `none` models `success = false`. -/
def stepForwardsE (linear : LinScope) : Expr → Option Expr
  | .var t nm =>
      match scopeGet linear nm with
      | some none => none
      | some (some step) =>
          if isConstZero step then some (.var t nm)
          else some (.add (.var t nm) step)
      | none => some (.var t nm)
  | .intImm t v => some (.intImm t v)
  | .uintImm t v => some (.uintImm t v)
  | .add a b => do pure (.add (← stepForwardsE linear a) (← stepForwardsE linear b))
  | .sub a b => do pure (.sub (← stepForwardsE linear a) (← stepForwardsE linear b))
  | .mul a b => do pure (.mul (← stepForwardsE linear a) (← stepForwardsE linear b))
  | .ramp b s l => do pure (.ramp (← stepForwardsE linear b) (← stepForwardsE linear s) l)
  | .broadcast v l => do pure (.broadcast (← stepForwardsE linear v) l)
  | .load t nm i p im pa => do
      pure (.load t nm (← stepForwardsE linear i) (← stepForwardsE linear p) im pa)
  | .letE nm v b => do pure (.letE nm (← stepForwardsE linear v) (← stepForwardsE linear b))
  | .call t nm args => do pure (.call t nm (← stepForwardsE linear args))
  | .eqE a b => do pure (.eqE (← stepForwardsE linear a) (← stepForwardsE linear b))
  | .gtE a b => do pure (.gtE (← stepForwardsE linear a) (← stepForwardsE linear b))
  | .argNil => some .argNil
  | .argCons a rest => do
      pure (.argCons (← stepForwardsE linear a) (← stepForwardsE linear rest))

/-- `step_forwards(e, scope)` from the source: mutate, then CSE, simplify
and substitute in all lets to reach a canonical let-free form. -/
def step_forwards (e : Expr) (linear : LinScope) : Option Expr :=
  match stepForwardsE linear e with
  | none => none
  | some e1 => some (subLetsE (simplifyModel (cseModel e1)))

/-- Reference semantics of scalar expressions (lane 0 of a vector), used
only to state soundness of the linearity analysis; loads and opaque
calls evaluate to an arbitrary fixed value. -/
def evalE : Expr → (String → Int) → Int
  | .var _ nm, ρ => ρ nm
  | .intImm _ v, _ => v
  | .uintImm _ v, _ => (v : Int)
  | .add a b, ρ => evalE a ρ + evalE b ρ
  | .sub a b, ρ => evalE a ρ - evalE b ρ
  | .mul a b, ρ => evalE a ρ * evalE b ρ
  | .ramp b _ _, ρ => evalE b ρ
  | .broadcast v _, ρ => evalE v ρ
  | .load _ _ _ _ _ _, _ => 0
  | .letE nm v b, ρ => evalE b (fun x => if x = nm then evalE v ρ else ρ x)
  | .call _ _ _, _ => 0
  | .eqE a b, ρ => if evalE a ρ = evalE b ρ then 1 else 0
  | .gtE a b, ρ => if evalE b ρ < evalE a ρ then 1 else 0
  | .argNil, _ => 0
  | .argCons _ _, _ => 0

/-- The buffer name of a load expression (junk for non-loads). -/
def loadName : Expr → String
  | .load _ nm _ _ _ _ => nm
  | _ => ""

/-- The index of a load expression (junk for non-loads). -/
def loadIndex : Expr → Expr
  | .load _ _ i _ _ _ => i
  | _ => .argNil

/-- The predicate of a load expression (junk for non-loads). -/
def loadPred : Expr → Expr
  | .load _ _ _ p _ _ => p
  | _ => .argNil

/-- Whether an expression is a load node. -/
def isLoad : Expr → Bool
  | .load _ _ _ _ _ _ => true
  | _ => false

/-- `FindLoads` on expressions: collect top-level `Load` nodes in
visitation order, without recursing into a load's own index or
predicate. -/
def findLoadsE : Expr → List Expr
  | .var _ _ => []
  | .intImm _ _ => []
  | .uintImm _ _ => []
  | .add a b => findLoadsE a ++ findLoadsE b
  | .sub a b => findLoadsE a ++ findLoadsE b
  | .mul a b => findLoadsE a ++ findLoadsE b
  | .ramp b s _ => findLoadsE b ++ findLoadsE s
  | .broadcast v _ => findLoadsE v
  | .load t nm i p im pa => [.load t nm i p im pa]
  | .letE _ v b => findLoadsE v ++ findLoadsE b
  | .call _ _ args => findLoadsE args
  | .eqE a b => findLoadsE a ++ findLoadsE b
  | .gtE a b => findLoadsE a ++ findLoadsE b
  | .argNil => []
  | .argCons a rest => findLoadsE a ++ findLoadsE rest

/-- `FindLoads` on statements (a `Store` visits predicate, value, index
in that order). -/
def findLoadsStmt : Stmt → List Expr
  | .store _ v i p => findLoadsE p ++ findLoadsE v ++ findLoadsE i
  | .letStmt _ v b => findLoadsE v ++ findLoadsStmt b
  | .block f r => findLoadsStmt f ++ findLoadsStmt r
  | .forS _ mn ex _ b => findLoadsE mn ++ findLoadsE ex ++ findLoadsStmt b
  | .ifThenElse c t => findLoadsE c ++ findLoadsStmt t
  | .ifThenElseE c t e => findLoadsE c ++ findLoadsStmt t ++ findLoadsStmt e
  | .producerConsumer _ _ b => findLoadsStmt b
  | .allocate _ _ _ ex c b => findLoadsE ex ++ findLoadsE c ++ findLoadsStmt b

/-- The safety filter of the pass (source lines 264-267): a load may be
lifted only if it reads a bound image, an input parameter, or an
in-consume production. -/
def loadIsSafe (inConsume : List String) : Expr → Bool
  | .load _ nm _ _ im pa => im || pa || inConsume.contains nm
  | _ => false

/-- Insert one safe load into the list of groups: append to the group
whose canonical (first) member is graph-equal, else start a new
singleton group. -/
def addLoadToGroups (l : Expr) (groups : List (List Expr)) : List (List Expr) :=
  let matched := groups.any (fun g => decide (g.headD Expr.argNil = l))
  let groups1 := groups.map (fun g => if g.headD Expr.argNil = l then g ++ [l] else g)
  if matched then groups1 else groups1 ++ [[l]]

/-- Group equal loads, discarding unsafe ones (source lines 262-282). -/
def groupLoads (inConsume : List String) (loads : List Expr) : List (List Expr) :=
  loads.foldl (fun gs l => if loadIsSafe inConsume l then addLoadToGroups l gs else gs) []

/-- Per-group data computed before edge detection (source lines 284-314):
the canonical load, its index and predicate, and their one-iteration
advanced forms. -/
structure GroupInfo where
  members : List Expr
  name : String
  ty : Ty
  index : Expr
  pred : Expr
  nextIndex : Option Expr
  nextPred : Option Expr
  deriving DecidableEq, Repr

/-- Build the `GroupInfo` of one load group. -/
def mkGroupInfo (linear : LinScope) (g : List Expr) : GroupInfo :=
  let canon := g.headD Expr.argNil
  { members := g
    name := loadName canon
    ty := canon.typeOf
    index := loadIndex canon
    pred := loadPred canon
    nextIndex := step_forwards (loadIndex canon) linear
    nextPred := step_forwards (loadPred canon) linear }

/-- Build all group infos. -/
def mkGroupInfos (linear : LinScope) (groups : List (List Expr)) : List GroupInfo :=
  groups.map (mkGroupInfo linear)

/-- The carry-edge condition of the source (lines 328-334): same buffer
name; the stepped index of `j` is defined and matches the index of `i`
structurally, or (at equal types) the solver proves the CSE-normalized
forms equal; and likewise for the predicates. -/
def edgeCond (cp : Expr → Bool) (gi gj : GroupInfo) : Bool :=
  match gj.nextIndex, gj.nextPred with
  | some nj, some pj =>
      decide (gi.name = gj.name) &&
      (decide (gi.index = nj) ||
        (decide (gi.index.typeOf = nj.typeOf) &&
          cp (.eqE (cseModel gi.index) (cseModel nj)))) &&
      (decide (gi.pred = pj) ||
        (decide (gi.pred.typeOf = pj.typeOf) &&
          cp (.eqE (cseModel gi.pred) (cseModel pj))))
  | _, _ => false

/-- The edge-detection double loop (source lines 318-341): for every
ordered pair `(i, j)` of distinct groups satisfying `edgeCond`, record
the two-element chain `[j, i]`. -/
def detectEdges (cp : Expr → Bool) (gs : List GroupInfo) : List (List Nat) :=
  gs.enum.flatMap (fun p =>
    gs.enum.filterMap (fun q =>
      if p.1 = q.1 then none
      else if edgeCond cp p.2 q.2 then some [q.1, p.1] else none))

/-- State of the agglomeration loop: the chain table and the `done`
flag. -/
structure AggSt where
  chains : List (List Nat)
  done : Bool
  deriving DecidableEq, Repr

/-- One (i, j) step of the agglomeration double loop (source lines
351-364): when chain `i` ends where chain `j` begins, concatenate `j`
(minus its head) onto `i` and clear `j`.  The in-place C++ updates are
read functionally: the inserted range is the pre-update value of chain
`j`, after which chain `j` is cleared (for `i = j` the net effect is
that the chain is cleared). -/
def mergeStep (st : AggSt) (i j : Nat) : AggSt :=
  if (st.chains.getD i []).isEmpty then st
  else if (st.chains.getD j []).isEmpty then st
  else if (st.chains.getD i []).getLast? = (st.chains.getD j []).head? then
    { chains := (st.chains.set i
        (st.chains.getD i [] ++ (st.chains.getD j []).drop 1)).set j []
      done := false }
  else st

/-- The swap-pop compaction loop (source lines 367-372), fuel-indexed so
that it reduces in the kernel: while the entry at `i` is empty, swap it
with the last entry and pop.  Every step either shrinks the list or
advances `i`, so `2·length + 1` fuel always suffices. -/
def compactGo : Nat → List (List Nat) → Nat → List (List Nat)
  | 0, l, _ => l
  | fuel + 1, l, i =>
      if i < l.length then
        if (l.getD i []).isEmpty then
          compactGo fuel ((l.set i (l.getLast?.getD [])).dropLast) i
        else compactGo fuel l (i + 1)
      else l

/-- The compaction loop with its sufficient fuel. -/
def compactLoop (l : List (List Nat)) : List (List Nat) :=
  compactGo (2 * l.length + 1) l 0

/-- The double loop of one agglomeration sweep. -/
def sweepDouble (chains : List (List Nat)) : AggSt :=
  (List.range chains.length).foldl
    (fun st i => (List.range chains.length).foldl (fun st j => mergeStep st i j) st)
    ⟨chains, true⟩

/-- One sweep of the agglomeration `while` loop: the full double loop
followed by compaction, with `done` initialized to true. -/
def sweepChains (chains : List (List Nat)) : AggSt :=
  ⟨compactLoop (sweepDouble chains).chains, (sweepDouble chains).done⟩

/-- Fuel-indexed agglomeration: sweep until a sweep makes no merge; the
boolean records whether the fixed point was reached within the fuel. -/
def runAgglom : Nat → List (List Nat) → List (List Nat) × Bool
  | 0, c => (c, false)
  | fuel + 1, c =>
      let st := sweepChains c
      if st.done then (st.chains, true)
      else runAgglom fuel st.chains

/-- The agglomeration loop of the source (lines 347-373). -/
def agglomerate (chains : List (List Nat)) : List (List Nat) :=
  (runAgglom (chains.length + 1) chains).1

/-- Stable insertion preserving the order of equal-length chains. -/
def insertByLen (c : List Nat) : List (List Nat) → List (List Nat)
  | [] => [c]
  | d :: rest =>
      if d.length ≤ c.length then c :: d :: rest else d :: insertByLen c rest

/-- `std::stable_sort` by decreasing chain length (source lines
381-382). -/
def sortChainsByLen : List (List Nat) → List (List Nat)
  | [] => []
  | c :: rest => insertByLen c (sortChainsByLen rest)

/-- `2^64`, the modulus of `size_t` arithmetic. -/
def SZ : Nat := 2 ^ 64

/-- The budget-trimming loop (source lines 394-407), with the `size_t`
arithmetic of `(size_t)max_carried_values - 1` and
`max_carried_values - sz` modelled modulo `2^64`: chains are admitted
greedily; the first chain that would exceed the budget is truncated to
the remaining headroom (when `sz < (size_t)(k - 1)`) or dropped, and
iteration stops there. -/
def trimChains (k : Nat) : List (List Nat) → Nat → List (List Nat)
  | [], _ => []
  | c :: rest, sz =>
      if sz + c.length > k then
        if sz < (k + SZ - 1) % SZ then
          [c.take ((k + SZ - sz) % SZ)]
        else []
      else c :: trimChains k rest (sz + c.length)

/-- A scratch allocation record handed from the per-loop rewriter to the
driver (source lines 529-536). -/
structure ScratchAlloc where
  name : String
  ty : Ty
  size : Nat
  initialStores : Stmt
  deriving DecidableEq, Repr

/-- Peel the leading `Let` bindings off an expression (source lines
464-467). -/
def peelLets : Expr → List (String × Expr) × Expr
  | .letE n v b => ((n, v) :: (peelLets b).1, (peelLets b).2)
  | e => ([], e)

/-- The initial-stores loop of the synthesis (source lines 473-480).
The C++ bound is the `size_t` value `c.size() - 1`; out-of-bounds
vector accesses are modelled as `none`. -/
def initialStoresGo (scratch : String) (vals : List Expr) (bound : Nat) :
    Nat → Nat → Option (List Stmt)
  | 0, _ => none
  | fuel + 1, i =>
      if i < bound then
        match vals.get? i with
        | none => none
        | some v =>
            let scratchIdx := scratch_index i v.typeOf
            match initialStoresGo scratch vals bound fuel (i + 1) with
            | none => none
            | some rest =>
                some (Stmt.store scratch v scratchIdx (constTrue scratchIdx.typeOf.lanes) :: rest)
      else some []

/-- Accumulated state while synthesizing the admitted chains. -/
structure SynthSt where
  core : Stmt
  notFirst : List Stmt
  shuffles : List Stmt
  allocs : List ScratchAlloc
  fresh : Nat
  deriving DecidableEq, Repr

/-- The per-position loop of one chain's synthesis (source lines
430-453): redirect the group's loads to scratch slot `i`, emit the
leading-edge store at the last position, record initial values at the
others, and a slide-down shuffle at every position after the first. -/
def synthPositions (scratch : String) (groups : List (List Expr)) (n : Nat) :
    List Nat → Nat → Stmt → Option (Stmt × List Stmt × List Expr × List Stmt)
  | [], _, core => some (core, [], [], [])
  | gi :: rest, i, core =>
      match groups.get? gi with
      | none => none
      | some g =>
        let origLoad := g.headD Expr.argNil
        let t := origLoad.typeOf
        let scratchIdx := scratch_index i t
        let loadScratch := Expr.load t scratch scratchIdx (constTrue t.lanes) false false
        let core1 := g.foldl (fun co l => replaceExprInStmt l loadScratch co) core
        match synthPositions scratch groups n rest (i + 1) core1 with
        | none => none
        | some (core2, nf, ivals, shs) =>
          let nf1 := if i = n - 1 then
            Stmt.store scratch origLoad scratchIdx (constTrue t.lanes) :: nf else nf
          let ivals1 := if i = n - 1 then ivals else origLoad :: ivals
          let shs1 := if 0 < i then
            Stmt.store scratch loadScratch (scratch_index (i - 1) t) (constTrue t.lanes) :: shs
            else shs
          some (core2, nf1, ivals1, shs1)

/-- The tail of one chain\'s synthesis (source lines 455-501): the joint
CSE of the initial values through a synthetic pure-intrinsic call, the
peeling of the produced lets, the initial prologue stores, the
rewrapping in the referenced containing lets, and the resulting
scratch-allocation record. -/
def synthAllocsOf (lets : List (String × Expr)) (scratch : String)
    (groups : List (List Expr)) (c : List Nat) (ivals : List Expr)
    (bfresh : Nat) : Option ScratchAlloc :=
  let bname := "b" ++ toString bfresh
  let bundled := simplifyModel (cseModel (Expr.call i32 bname (argsOfList ivals)))
  let peeled := peelLets bundled
  match peeled.2 with
  | .call _ _ a =>
    let args := listOfArgs a
    let bound := (c.length + SZ - 1) % SZ
    match initialStoresGo scratch args bound (args.length + 2) 0 with
    | none => none
    | some stores =>
      match blockMakeList stores with
      | none => none
      | some initials0 =>
        let initials1 := peeled.1.reverse.foldl (fun s l => Stmt.letStmt l.1 l.2 s) initials0
        let initials2 := lets.reverse.foldl
          (fun s l => if stmtUsesVar l.1 s then Stmt.letStmt l.1 l.2 s else s) initials1
        match c.head? with
        | none => none
        | some frontIdx =>
          match groups.get? frontIdx with
          | none => none
          | some g0 =>
            let t0 := (g0.headD Expr.argNil).typeOf
            some ⟨scratch, t0.elementOf, c.length * t0.lanes, initials2⟩
  | _ => none

/-- Synthesis of one admitted chain (source lines 426-502): the
position loop, then the joint CSE of the initial values through a
synthetic pure-intrinsic call, the initial prologue stores, the
rewrapping in the referenced containing lets, and the
scratch-allocation record (the latter steps in `synthAllocsOf`). -/
def synthChain (lets : List (String × Expr)) (groups : List (List Expr))
    (st : SynthSt) (c : List Nat) : Option SynthSt :=
  let scratch := "c" ++ toString st.fresh
  Option.bind (synthPositions scratch groups c.length c 0 st.core) (fun r =>
    Option.bind (synthAllocsOf lets scratch groups c r.2.2.1 (st.fresh + 1)) (fun alloc =>
      some { core := r.1
             notFirst := st.notFirst ++ r.2.1
             shuffles := st.shuffles ++ r.2.2.2
             allocs := st.allocs ++ [alloc]
             fresh := st.fresh + 1 + 1 }))

/-- `lift_carried_values_out_of_stmt` (source lines 247-509): let
substitution, load discovery and grouping, carry-edge detection (early
return when no edges), agglomeration, stable sort, budget trimming,
per-chain synthesis, and the final leading-edge/core/shuffle block. -/
def lift_carried_values (cp : Expr → Bool) (k : Nat) (inConsume : List String)
    (linear : LinScope) (lets : List (String × Expr)) (fresh : Nat) (s : Stmt) :
    Option (Stmt × List ScratchAlloc × Nat) :=
  let graphStmt := subLetsStmt s
  let found := findLoadsStmt graphStmt
  let groups := groupLoads inConsume found
  let gs := mkGroupInfos linear groups
  let chains0 := detectEdges cp gs
  if chains0.isEmpty then some (s, [], fresh)
  else
    let chains := trimChains k (sortChainsByLen (agglomerate chains0)) 0
    Option.bind (chains.foldlM (synthChain lets groups) ⟨graphStmt, [], [], [], fresh⟩)
      (fun st => Option.bind (blockMakeList st.notFirst) (fun nfB =>
        Option.bind (blockMakeList st.shuffles) (fun shB =>
          some (cseStmtModel (blockMake2 (blockMake2 nfB st.core) shB),
            st.allocs, st.fresh))))

/-- Whether a statement is a `Store`. -/
def isStoreStmt : Stmt → Bool
  | .store _ _ _ _ => true
  | _ => false

/-- Sum of statement sizes, the termination measure of the rewriter's
block walk. -/
def sumSizes (l : List Stmt) : Nat := (l.map Stmt.ssize).sum

/-- Fuel bound for the rewriter recursion: `2 * ssize` steps always
suffice (each recursive call strictly decreases this measure). -/
def rwFuelFor (s : Stmt) : Nat := 2 * s.ssize + 1

mutual

/-- The per-loop rewriter `LoopCarryOverLoop` (source lines 185-537),
fuel-indexed so that it reduces in the kernel (`rwFuelFor` fuel always
suffices; exhausted fuel yields `none`): tracks the linear scope and
containing lets across `LetStmt`s, lifts carried values out of single
stores and of maximal store runs inside blocks, and refuses to descend
into nested `For` and `IfThenElse`. -/
def rwMutate (cp : Expr → Bool) (k : Nat) (inConsume : List String) :
    Nat → LinScope → List (String × Expr) → Nat → Stmt →
    Option (Stmt × List ScratchAlloc × Nat)
  | 0, _, _, _, _ => none
  | fuel + 1, linear, lets, fresh, s =>
    match s with
    | .store nm v i p =>
        lift_carried_values cp k inConsume linear lets fresh (.store nm v i p)
    | .letStmt nm v b => do
        let step := is_linear v linear
        let (b', al, n') ← rwMutate cp k inConsume fuel ((nm, step) :: linear)
          (lets ++ [(nm, v)]) fresh b
        pure (.letStmt nm v b', al, n')
    | .block f r => do
        let (out, al, n') ← rwBlockGo cp k inConsume fuel linear lets fresh
          (block_to_vector (.block f r)) [] []
        let t ← blockMakeList out
        pure (t, al, n')
    | .forS nm mn ex ft b => some (.forS nm mn ex ft b, [], fresh)
    | .ifThenElse c t => some (.ifThenElse c t, [], fresh)
    | .ifThenElseE c t e => some (.ifThenElseE c t e, [], fresh)
    | .producerConsumer nm ip b => do
        let (b', al, n') ← rwMutate cp k inConsume fuel linear lets fresh b
        pure (.producerConsumer nm ip b', al, n')
    | .allocate nm t m ex cnd b => do
        let (b', al, n') ← rwMutate cp k inConsume fuel linear lets fresh b
        pure (.allocate nm t m ex cnd b', al, n')

/-- The store-run walk of `visit(const Block *)` (source lines 224-245):
consecutive stores are accumulated and lifted as one compound stmt;
other stmts flush the pending run and are mutated individually. -/
def rwBlockGo (cp : Expr → Bool) (k : Nat) (inConsume : List String) :
    Nat → LinScope → List (String × Expr) → Nat → List Stmt → List Stmt →
    List Stmt → Option (List Stmt × List ScratchAlloc × Nat)
  | 0, _, _, _, _, _, _ => none
  | fuel + 1, linear, lets, fresh, l, pending, acc =>
    match l with
    | [] =>
        if pending.isEmpty then some (acc, [], fresh)
        else do
          let pb ← blockMakeList pending
          let (t, al, n') ← lift_carried_values cp k inConsume linear lets fresh pb
          pure (acc ++ [t], al, n')
    | x :: rest =>
        if isStoreStmt x then
          rwBlockGo cp k inConsume fuel linear lets fresh rest (pending ++ [x]) acc
        else if pending.isEmpty then do
          let (x', alx, n1) ← rwMutate cp k inConsume fuel linear lets fresh x
          let (out, al, n2) ← rwBlockGo cp k inConsume fuel linear lets n1 rest [] (acc ++ [x'])
          pure (out, alx ++ al, n2)
        else do
          let pb ← blockMakeList pending
          let (t, alp, n1) ← lift_carried_values cp k inConsume linear lets fresh pb
          let (x', alx, n2) ← rwMutate cp k inConsume fuel linear lets n1 x
          let (out, al, n3) ← rwBlockGo cp k inConsume fuel linear lets n2 rest [] (acc ++ [t, x'])
          pure (out, alp ++ alx ++ al, n3)

end

/-- Number of nonempty chains, the termination measure of the
agglomeration loop. -/
def neCount (l : List (List Nat)) : Nat := l.countP (fun c => !c.isEmpty)

/-- The loop invariant relating the state after part of the double loop
to the state before it. -/
def AggInv (a b : AggSt) : Prop :=
  a = b ∨ (neCount a.chains < neCount b.chains ∧ a.done = false)

/-- The pass driver `LoopCarry` (source lines 539-585): track consume
regions, transform serial loops whose extent is not statically one
(bodies first, bottom-up), splice the prologue with the loop variable
substituted by the loop min, wrap in the scratch `Allocate`s, and guard
with `extent > 0` when anything was allocated.  Threads the fresh-name
counter; other nodes get the default mutator recursion. -/
def lcMutate (cp : Expr → Bool) (k : Nat) :
    List String → Nat → Stmt → Option (Stmt × Nat)
  | _, n, .store nm v i p => some (.store nm v i p, n)
  | inCons, n, .letStmt nm v b => do
      let (b', n') ← lcMutate cp k inCons n b
      pure (.letStmt nm v b', n')
  | inCons, n, .block f r => do
      let (f', n1) ← lcMutate cp k inCons n f
      let (r', n2) ← lcMutate cp k inCons n1 r
      pure (if f' = f ∧ r' = r then Stmt.block f r else blockMake2 f' r', n2)
  | inCons, n, .ifThenElse c t => do
      let (t', n') ← lcMutate cp k inCons n t
      pure (.ifThenElse c t', n')
  | inCons, n, .ifThenElseE c t e => do
      let (t', n1) ← lcMutate cp k inCons n t
      let (e', n2) ← lcMutate cp k inCons n1 e
      pure (.ifThenElseE c t' e', n2)
  | inCons, n, .producerConsumer nm ip b =>
      if ip then do
        let (b', n') ← lcMutate cp k inCons n b
        pure (.producerConsumer nm true b', n')
      else do
        let (b', n') ← lcMutate cp k (nm :: inCons) n b
        pure (.producerConsumer nm false b', n')
  | inCons, n, .allocate nm t m ex cnd b => do
      let (b', n') ← lcMutate cp k inCons n b
      pure (.allocate nm t m ex cnd b', n')
  | inCons, n, .forS nm mn ex ft b =>
      if ft = ForType.serial ∧ isConstOne ex = false then do
        let (body1, n1) ← lcMutate cp k inCons n b
        let (body2, allocs, n2) ← rwMutate cp k inCons (rwFuelFor body1)
          [(nm, some (Expr.intImm i32 1))] [] n1 body1
        let stmt0 := Stmt.forS nm mn ex ft body2
        let stmt1 := allocs.foldl (fun st al =>
          Stmt.allocate al.name al.ty MemTy.stack
            (argsOfList [Expr.intImm i32 (al.size : Int)]) (constTrue 1)
            (blockMake2 (substVarStmt nm mn al.initialStores) st)) stmt0
        let stmt2 := if allocs.isEmpty then stmt1
          else Stmt.ifThenElse (.gtE ex (.intImm i32 0)) stmt1
        pure (stmt2, n2)
      else do
        let (b', n') ← lcMutate cp k inCons n b
        pure (.forS nm mn ex ft b', n')

/-- `loop_carry(s, max_carried_values)` (source lines 589-592), with the
modelled conservative prover; `none` models a failed internal assertion
or an out-of-bounds access in the C++ (an aborted compilation). -/
def loop_carry (s : Stmt) (k : Nat) : Option Stmt :=
  (lcMutate canProveModel k [] 0 s).map Prod.fst

/-- Collect the extents of all `Allocate` nodes in a statement (used to
measure the scratch footprint of a transformed loop). -/
def scratchAllocSizes : Stmt → List Nat
  | .allocate _ _ _ ex _ b =>
      (listOfArgs ex).map (fun e => match e with | .intImm _ v => v.toNat | _ => 0) ++
        scratchAllocSizes b
  | .block f r => scratchAllocSizes f ++ scratchAllocSizes r
  | .letStmt _ _ b => scratchAllocSizes b
  | .forS _ _ _ _ b => scratchAllocSizes b
  | .ifThenElse _ t => scratchAllocSizes t
  | .ifThenElseE _ t e => scratchAllocSizes t ++ scratchAllocSizes e
  | .producerConsumer _ _ b => scratchAllocSizes b
  | .store _ _ _ _ => []

/-! Concrete example inputs used by the witness and counterexample
theorems. -/

/-- The scalar all-true predicate. -/
def ct1 : Expr := constTrue 1

/-- The loop variable `x`. -/
def vX : Expr := Expr.var i32 "x"

/-- `in[x]`, a load from an input parameter. -/
def ld0 : Expr := Expr.load i32 "in" vX ct1 false true

/-- `in[x + 1]`. -/
def ld1 : Expr := Expr.load i32 "in" (Expr.add vX (Expr.intImm i32 1)) ct1 false true

/-- `out[x] = in[x] + in[x + 1]`, a 2-tap stencil store. -/
def st1 : Stmt := Stmt.store "out" (Expr.add ld0 ld1) vX ct1

/-- The stencil inside a serial loop whose extent is the constant 0. -/
def loop0 : Stmt := Stmt.forS "x" (Expr.intImm i32 0) (Expr.intImm i32 0) ForType.serial st1

/-- The linear scope of a loop over `x`. -/
def linX : LinScope := [("x", some (Expr.intImm i32 1))]

/-- The group infos the rewriter computes for the store `st1`. -/
def gs0 : List GroupInfo :=
  mkGroupInfos linX (groupLoads [] (findLoadsStmt (subLetsStmt st1)))

/-- A two-lane vector type. -/
def tv : Ty := ⟨TyBase.int, 32, 2⟩

/-- The two-lane all-true predicate. -/
def ct2 : Expr := constTrue 2

/-- `ramp(x, 1, 2)`. -/
def idx0 : Expr := Expr.ramp vX (Expr.intImm i32 1) 2

/-- `ramp(x + 1, 1, 2)`. -/
def idx1 : Expr := Expr.ramp (Expr.add vX (Expr.intImm i32 1)) (Expr.intImm i32 1) 2

/-- A two-lane vector load `in[ramp(x, 1, 2)]`. -/
def l0v : Expr := Expr.load tv "in" idx0 ct2 false true

/-- A two-lane vector load `in[ramp(x + 1, 1, 2)]`. -/
def l1v : Expr := Expr.load tv "in" idx1 ct2 false true

/-- A vector stencil store. -/
def stv : Stmt := Stmt.store "out" (Expr.add l0v l1v) idx0 ct2

/-- The vector stencil inside a serial loop of extent 10. -/
def loopv : Stmt := Stmt.forS "x" (Expr.intImm i32 0) (Expr.intImm i32 10) ForType.serial stv

/-- A float-typed load from the same buffer at the same index as `ld1`
(same buffer, same index, different load type, hence a distinct load
group). -/
def ld2 : Expr := Expr.load ⟨TyBase.float, 32, 1⟩ "in"
  (Expr.add vX (Expr.intImm i32 1)) ct1 false true

/-- A run of two stores whose loads form two distinct groups both fed by
the stepped index of group 0. -/
def run5 : Stmt := Stmt.block (Stmt.store "out" (Expr.add ld0 ld1) vX ct1)
  (Stmt.store "out2" ld2 vX ct1)

/-- The group infos of `run5`. -/
def gs5 : List GroupInfo :=
  mkGroupInfos linX (groupLoads [] (findLoadsStmt (subLetsStmt run5)))

/-- The stencil inside a serial loop of extent 10. -/
def loop10 : Stmt := Stmt.forS "x" (Expr.intImm i32 0) (Expr.intImm i32 10) ForType.serial st1

/-- Whether a statement is a Block node. -/
def isBlockStmt : Stmt → Bool
  | .block _ _ => true
  | _ => false

/-- Right-leaning block spines: the first child of a block is never
itself a block (the invariant maintained by `Block::make`). -/
def spineCanon : Stmt → Bool
  | .block f r => !isBlockStmt f && spineCanon r
  | _ => true

/-- Canonical block structure everywhere in a statement (what the IR
constructors produce). -/
def blockCanonical : Stmt → Bool
  | .store _ _ _ _ => true
  | .letStmt _ _ b => blockCanonical b
  | .block f r => !isBlockStmt f && blockCanonical f && blockCanonical r
  | .forS _ _ _ _ b => blockCanonical b
  | .ifThenElse _ t => blockCanonical t
  | .ifThenElseE _ t e => blockCanonical t && blockCanonical e
  | .producerConsumer _ _ b => blockCanonical b
  | .allocate _ _ _ _ _ b => blockCanonical b

/-- The claim-side eligibility predicate: does the statement contain a
serial `For` whose extent is a constant greater than one? -/
def hasSerialForExtGT1 : Stmt → Bool
  | .store _ _ _ _ => false
  | .letStmt _ _ b => hasSerialForExtGT1 b
  | .block f r => hasSerialForExtGT1 f || hasSerialForExtGT1 r
  | .forS _ _ ex ft b =>
      (decide (ft = ForType.serial) &&
        (match ex with | .intImm _ v => decide (1 < v) | _ => false)) ||
      hasSerialForExtGT1 b
  | .ifThenElse _ t => hasSerialForExtGT1 t
  | .ifThenElseE _ t e => hasSerialForExtGT1 t || hasSerialForExtGT1 e
  | .producerConsumer _ _ b => hasSerialForExtGT1 b
  | .allocate _ _ _ _ _ b => hasSerialForExtGT1 b

/-- No `For` in the statement is eligible for the rewriter: none is
serial with an extent other than the constant one (the code-side
eligibility test of `LoopCarry::visit(const For *)`). -/
def noEligibleFor : Stmt → Bool
  | .store _ _ _ _ => true
  | .letStmt _ _ b => noEligibleFor b
  | .block f r => noEligibleFor f && noEligibleFor r
  | .forS _ _ ex ft b =>
      !(decide (ft = ForType.serial) && !isConstOne ex) && noEligibleFor b
  | .ifThenElse _ t => noEligibleFor t
  | .ifThenElseE _ t e => noEligibleFor t && noEligibleFor e
  | .producerConsumer _ _ b => noEligibleFor b
  | .allocate _ _ _ _ _ b => noEligibleFor b

/-- Whether the carry-edge detection of one store run finds no edges
(the early-return test of `lift_carried_values_out_of_stmt`). -/
def runHasNoChains (cp : Expr → Bool) (inConsume : List String)
    (lin : LinScope) (s : Stmt) : Bool :=
  (detectEdges cp (mkGroupInfos lin (groupLoads inConsume (findLoadsStmt (subLetsStmt s))))).isEmpty

mutual

/-- "No load groups admit carries" along the rewriter's own traversal:
every store run the rewriter would lift has an empty carry-edge set.
Fuel-indexed in lockstep with `rwMutate`. -/
def noCarryRw (cp : Expr → Bool) (inConsume : List String) :
    Nat → LinScope → Stmt → Bool
  | 0, _, _ => false
  | fuel + 1, lin, s =>
    match s with
    | .store nm v i p => runHasNoChains cp inConsume lin (.store nm v i p)
    | .letStmt nm v b => noCarryRw cp inConsume fuel ((nm, is_linear v lin) :: lin) b
    | .block f r => noCarryGo cp inConsume fuel lin (block_to_vector (.block f r)) []
    | .forS _ _ _ _ _ => true
    | .ifThenElse _ _ => true
    | .ifThenElseE _ _ _ => true
    | .producerConsumer _ _ b => noCarryRw cp inConsume fuel lin b
    | .allocate _ _ _ _ _ b => noCarryRw cp inConsume fuel lin b

/-- The store-run walk of `noCarryRw`, in lockstep with `rwBlockGo`. -/
def noCarryGo (cp : Expr → Bool) (inConsume : List String) :
    Nat → LinScope → List Stmt → List Stmt → Bool
  | 0, _, _, _ => false
  | fuel + 1, lin, [], pending =>
      if pending.isEmpty then true
      else
        match blockMakeList pending with
        | some pb => runHasNoChains cp inConsume lin pb
        | none => true
  | fuel + 1, lin, x :: rest, pending =>
      if isStoreStmt x then noCarryGo cp inConsume fuel lin rest (pending ++ [x])
      else if pending.isEmpty then
        noCarryRw cp inConsume fuel lin x && noCarryGo cp inConsume fuel lin rest []
      else
        (match blockMakeList pending with
          | some pb => runHasNoChains cp inConsume lin pb
          | none => true) &&
        noCarryRw cp inConsume fuel lin x && noCarryGo cp inConsume fuel lin rest []

end

/-- The carry-edge condition as the specification words it (§4.5),
stated over the raw load groups and the linear scope: the two groups\'
buffer names are equal; `step_forwards` of group `j`\'s index is defined
and equals group `i`\'s index either by structural DAG equality or, with
matching types, by `can_prove` on the CSE-normalized forms; and the
same holds for the predicates. -/
def specCarryEdge (cp : Expr → Bool) (linear : LinScope)
    (groups : List (List Expr)) (i j : Nat) : Prop :=
  ∃ gi gj, groups.get? i = some gi ∧ groups.get? j = some gj ∧
    loadName (gi.headD Expr.argNil) = loadName (gj.headD Expr.argNil) ∧
    (∃ nj, step_forwards (loadIndex (gj.headD Expr.argNil)) linear = some nj ∧
      (loadIndex (gi.headD Expr.argNil) = nj ∨
        ((loadIndex (gi.headD Expr.argNil)).typeOf = nj.typeOf ∧
          cp (.eqE (cseModel (loadIndex (gi.headD Expr.argNil))) (cseModel nj)) = true))) ∧
    (∃ pj, step_forwards (loadPred (gj.headD Expr.argNil)) linear = some pj ∧
      (loadPred (gi.headD Expr.argNil) = pj ∨
        ((loadPred (gi.headD Expr.argNil)).typeOf = pj.typeOf ∧
          cp (.eqE (cseModel (loadPred (gi.headD Expr.argNil))) (cseModel pj)) = true)))

/-- The substitution used by the claim\'s wording of linearity soundness:
replace every occurrence of every variable tracked in the scope by that
variable plus one. -/
def substPlusOneTracked (scope : LinScope) : Expr → Expr
  | .var t nm =>
      if (scopeGet scope nm).isSome then .add (.var t nm) (.intImm t 1) else .var t nm
  | .intImm t v => .intImm t v
  | .uintImm t v => .uintImm t v
  | .add a b => .add (substPlusOneTracked scope a) (substPlusOneTracked scope b)
  | .sub a b => .sub (substPlusOneTracked scope a) (substPlusOneTracked scope b)
  | .mul a b => .mul (substPlusOneTracked scope a) (substPlusOneTracked scope b)
  | .ramp b s l => .ramp (substPlusOneTracked scope b) (substPlusOneTracked scope s) l
  | .broadcast v l => .broadcast (substPlusOneTracked scope v) l
  | .load t nm i p im pa =>
      .load t nm (substPlusOneTracked scope i) (substPlusOneTracked scope p) im pa
  | .letE nm v b => .letE nm (substPlusOneTracked scope v) (substPlusOneTracked scope b)
  | .call t nm args => .call t nm (substPlusOneTracked scope args)
  | .eqE a b => .eqE (substPlusOneTracked scope a) (substPlusOneTracked scope b)
  | .gtE a b => .gtE (substPlusOneTracked scope a) (substPlusOneTracked scope b)
  | .argNil => .argNil
  | .argCons a rest => .argCons (substPlusOneTracked scope a) (substPlusOneTracked scope rest)

/-- Advance every variable that the linear scope tracks with a defined
step by the value of that step (evaluated in the pre-state); variables
tracked as non-linear or untracked are unchanged. -/
def stepEnv (scope : LinScope) (ρ : String → Int) : String → Int :=
  fun x =>
    match scopeGet scope x with
    | some (some s) => ρ x + evalE s ρ
    | _ => ρ x

/-- A linear scope in which `y` is tracked with step 2 (as arises from
`let y = x + x` inside a loop over `x`). -/
def cexScope : LinScope := [("y", some (Expr.intImm i32 2)), ("x", some (Expr.intImm i32 1))]

/-- The all-zero environment. -/
def zeroEnv : String → Int := fun _ => 0

/-- Apply a list of whole-expression redirections (needle, replacement)
to a statement, in order. -/
def applyRedirs (R : List (Expr × Expr)) (s : Stmt) : Stmt :=
  R.foldl (fun st p => replaceExprInStmt p.1 p.2 st) s

/-- The buffer names of the `Store` nodes of a statement, in syntactic
order. -/
def storeNames : Stmt → List String
  | .store nm _ _ _ => [nm]
  | .letStmt _ _ b => storeNames b
  | .block f r => storeNames f ++ storeNames r
  | .forS _ _ _ _ b => storeNames b
  | .ifThenElse _ t => storeNames t
  | .ifThenElseE _ t e => storeNames t ++ storeNames e
  | .producerConsumer _ _ b => storeNames b
  | .allocate _ _ _ _ _ b => storeNames b

/-- Whether the outermost node of an expression is a `Let`. -/
def exprTopIsLet : Expr → Bool
  | .letE _ _ _ => true
  | _ => false

/-- The value stored by a `Store` statement (junk for non-stores). -/
def storeValue : Stmt → Expr
  | .store _ v _ _ => v
  | _ => Expr.argNil

/-- The components of a `Load` node, used to quantify over redirections
whose needle is a load by construction. -/
structure LoadShape where
  ty : Ty
  buf : String
  idx : Expr
  prd : Expr
  img : Bool
  par : Bool
  deriving DecidableEq, Repr

/-- The load expression described by a `LoadShape`. -/
def LoadShape.toExpr (l : LoadShape) : Expr := .load l.ty l.buf l.idx l.prd l.img l.par

/-- Apply a list of redirections whose needles are loads. -/
def applyLoadRedirs (R : List (LoadShape × Expr)) (s : Stmt) : Stmt :=
  R.foldl (fun st p => replaceExprInStmt p.1.toExpr p.2 st) s

/-- The effect of one chain synthesis on the accumulated state: the core
is rewritten only by load-for-load redirections, and the leading-edge
and shuffle lists grow by store statements only. -/
def SynthRel (a b : SynthSt) : Prop :=
  (∃ R, b.core = applyRedirs R a.core ∧
      ∀ p ∈ R, isLoad p.1 = true ∧ isLoad p.2 = true) ∧
  (∃ nf, b.notFirst = a.notFirst ++ nf ∧ ∀ t ∈ nf, isStoreStmt t = true) ∧
  (∃ sh, b.shuffles = a.shuffles ++ sh ∧ ∀ t ∈ sh, isStoreStmt t = true)

/-- A stencil store whose value contains an expression-level `Let`:
`out[x] = let t = 5 in t + (in[x] + in[x + 1])`. -/
def st8 : Stmt := Stmt.store "out"
  (Expr.letE "t" (Expr.intImm i32 5)
    (Expr.add (Expr.var i32 "t") (Expr.add ld0 ld1))) vX ct1

/-- The result of lifting carried values out of `st8` with budget 8. -/
def lifted8 : Stmt × List ScratchAlloc × Nat :=
  (lift_carried_values canProveModel 8 [] linX [] 0 st8).getD (st8, [], 0)

/-! Supporting lemmas. -/

theorem ssize_pos (s : Stmt) : 1 ≤ s.ssize := by
  cases s <;> simp [Stmt.ssize] <;> omega

theorem sum_btv_le (s : Stmt) : sumSizes (block_to_vector s) ≤ s.ssize := by
  induction s with
  | block f r ihf ihr =>
      simp only [block_to_vector, sumSizes, List.map_append, List.sum_append, Stmt.ssize]
      have := ihf
      have := ihr
      simp only [sumSizes] at *
      omega
  | _ => simp [block_to_vector, sumSizes, Stmt.ssize]


theorem getD_nil_eq_getElem (l : List (List Nat)) (i : Nat) (h : i < l.length) :
    l.getD i [] = l[i] := by
  rw [List.getD_eq_getElem?_getD, List.getElem?_eq_getElem h]
  rfl

theorem countP_set_add (p : List Nat → Bool) (l : List (List Nat)) (n : Nat)
    (a : List Nat) (h : n < l.length) :
    (l.set n a).countP p + (if p l[n] then 1 else 0) =
      l.countP p + (if p a then 1 else 0) := by
  rw [List.set_eq_take_cons_drop a h, List.countP_append, List.countP_cons]
  conv_rhs => rw [← List.take_append_drop n l, List.countP_append,
    List.drop_eq_getElem_cons h, List.countP_cons]
  omega

theorem getD_nonempty_lt (l : List (List Nat)) (i : Nat)
    (h : (l.getD i []).isEmpty = false) : i < l.length := by
  by_contra hge
  rw [List.getD_eq_getElem?_getD, List.getElem?_eq_none (by omega)] at h
  simp at h

theorem neCount_set_nonempty (l : List (List Nat)) (n : Nat) (a : List Nat)
    (h : n < l.length) (hn : l[n] ≠ []) (ha : a ≠ []) :
    neCount (l.set n a) = neCount l := by
  have h2 := countP_set_add (fun c => !c.isEmpty) l n a h
  rw [if_pos (by simp [hn]), if_pos (by simp [ha])] at h2
  simpa [neCount] using h2

theorem neCount_set_empty (l : List (List Nat)) (n : Nat)
    (h : n < l.length) (hn : l[n] ≠ []) :
    neCount (l.set n []) + 1 = neCount l := by
  have h2 := countP_set_add (fun c => !c.isEmpty) l n [] h
  rw [if_pos (by simp [hn]), if_neg (by simp)] at h2
  simpa [neCount] using h2

theorem mergeStep_cases (st : AggSt) (i j : Nat) :
    mergeStep st i j = st ∨
      (neCount (mergeStep st i j).chains < neCount st.chains ∧
        (mergeStep st i j).done = false) := by
  simp only [mergeStep]
  split
  · exact Or.inl rfl
  · split
    · exact Or.inl rfl
    · split
      · next h1 h2 h3 =>
          right
          refine ⟨?_, rfl⟩
          have hne_i : st.chains.getD i [] ≠ [] := by
            intro he; rw [he] at h1; exact h1 rfl
          have hne_j : st.chains.getD j [] ≠ [] := by
            intro he; rw [he] at h2; exact h2 rfl
          have hi : i < st.chains.length :=
            getD_nonempty_lt _ _ (by simpa using hne_i)
          have hj : j < st.chains.length :=
            getD_nonempty_lt _ _ (by simpa using hne_j)
          have hEi : st.chains.getD i [] = st.chains[i] := getD_nil_eq_getElem _ _ hi
          have hA : st.chains.getD i [] ++ (st.chains.getD j []).drop 1 ≠ [] := by
            intro he
            exact hne_i (List.append_eq_nil.mp he).1
          dsimp only
          by_cases hij : i = j
          · subst hij
            rw [List.set_set]
            have := neCount_set_empty st.chains i hi (by rw [← hEi]; exact hne_i)
            omega
          · have s1 := neCount_set_nonempty st.chains i
              (st.chains.getD i [] ++ (st.chains.getD j []).drop 1) hi
              (by rw [← hEi]; exact hne_i) hA
            have hj2 : j < (st.chains.set i
                (st.chains.getD i [] ++ (st.chains.getD j []).drop 1)).length := by
              simpa using hj
            have hgj : (st.chains.set i
                (st.chains.getD i [] ++ (st.chains.getD j []).drop 1))[j] ≠ [] := by
              rw [List.getElem_set_ne (by omega)]
              rw [← getD_nil_eq_getElem _ _ hj]
              exact hne_j
            have s2 := neCount_set_empty _ j hj2 hgj
            omega
      · exact Or.inl rfl

theorem aggInv_trans {a b c : AggSt} (h1 : AggInv a b) (h2 : AggInv b c) : AggInv a c := by
  rcases h1 with rfl | ⟨hc, hd⟩
  · exact h2
  · rcases h2 with rfl | ⟨hc2, _⟩
    · exact Or.inr ⟨hc, hd⟩
    · exact Or.inr ⟨Nat.lt_trans hc hc2, hd⟩

theorem foldl_aggInv {f : AggSt → Nat → AggSt} (hf : ∀ st x, AggInv (f st x) st) :
    ∀ (l : List Nat) (st : AggSt), AggInv (l.foldl f st) st := by
  intro l
  induction l with
  | nil => intro st; exact Or.inl rfl
  | cons x xs ih => intro st; exact aggInv_trans (ih (f st x)) (hf st x)

theorem neCount_compactGo_le : ∀ (fuel : Nat) (l : List (List Nat)) (i : Nat),
    neCount (compactGo fuel l i) ≤ neCount l := by
  intro fuel
  induction fuel with
  | zero => intro l i; simp [compactGo]
  | succ fuel ih =>
      intro l i
      rw [compactGo]
      by_cases hlt : i < l.length
      · rw [if_pos hlt]
        by_cases he : (l.getD i []).isEmpty
        · rw [if_pos he]
          refine le_trans (ih _ _) ?_
          have h2 := countP_set_add (fun c => !c.isEmpty) l i (l.getLast?.getD []) hlt
          have hli : l[i] = l.getD i [] := (getD_nil_eq_getElem _ _ hlt).symm
          rw [hli, if_neg (by rw [he]; simp)] at h2
          have hlnil : l ≠ [] := by
            intro h0; rw [h0] at hlt; simp at hlt
          have hne' : l.set i (l.getLast?.getD []) ≠ [] := by
            intro h0
            have h3 := congrArg List.length h0
            simp only [List.length_set, List.length_nil] at h3
            omega
          have hsplit := List.dropLast_append_getLast hne'
          have hlast : (l.set i (l.getLast?.getD [])).getLast hne' = l.getLast?.getD [] := by
            rw [List.getLast_eq_getElem]
            have hidx : (l.set i (l.getLast?.getD [])).length - 1 = l.length - 1 := by simp
            rw [List.getElem_set]
            by_cases hieq : i = (l.set i (l.getLast?.getD [])).length - 1
            · rw [if_pos hieq]
            · rw [if_neg hieq]
              have hgd : l.getLast?.getD [] = l.getLast hlnil := by
                rw [List.getLast?_eq_getLast_of_ne_nil hlnil]
                rfl
              conv_rhs => rw [hgd]
              rw [List.getLast_eq_getElem (l := l) hlnil]
              congr 1
          have hcnt := congrArg (List.countP (fun c => !c.isEmpty)) hsplit
          rw [List.countP_append, List.countP_singleton, hlast] at hcnt
          simp only [neCount]
          omega
        · rw [if_neg he]
          exact ih _ _
      · rw [if_neg hlt]

theorem sweepDouble_inv (chains : List (List Nat)) :
    AggInv (sweepDouble chains) ⟨chains, true⟩ := by
  apply foldl_aggInv
  intro st x
  apply foldl_aggInv
  intro st' y
  exact mergeStep_cases st' x y

theorem sweep_done_false_count (chains : List (List Nat))
    (h : (sweepChains chains).done = false) :
    neCount (sweepChains chains).chains < neCount chains := by
  rcases sweepDouble_inv chains with he | ⟨hc, _⟩
  · exfalso
    simp only [sweepChains, he] at h
    exact Bool.true_eq_false.mp h
  · simp only [sweepChains]
    exact lt_of_le_of_lt (neCount_compactGo_le _ _ _) hc

theorem runAgglom_reaches : ∀ (fuel : Nat) (chains : List (List Nat)),
    neCount chains < fuel → (runAgglom fuel chains).2 = true := by
  intro fuel
  induction fuel with
  | zero => intro chains h; omega
  | succ fuel ih =>
      intro chains h
      rw [runAgglom]
      by_cases hd : (sweepChains chains).done
      · rw [if_pos hd]
      · rw [if_neg hd]
        apply ih
        have := sweep_done_false_count chains (by simpa using hd)
        omega

theorem compactGo_subset : ∀ (fuel : Nat) (l : List (List Nat)) (i : Nat),
    ∀ x ∈ compactGo fuel l i, x ∈ l := by
  intro fuel
  induction fuel with
  | zero => intro l i x hx; simpa [compactGo] using hx
  | succ fuel ih =>
      intro l i x hx
      rw [compactGo] at hx
      by_cases hlt : i < l.length
      · rw [if_pos hlt] at hx
        by_cases he : (l.getD i []).isEmpty
        · rw [if_pos he] at hx
          have hx2 := ih _ _ _ hx
          have hx3 : x ∈ l.set i (l.getLast?.getD []) :=
            (List.dropLast_sublist _).mem hx2
          rcases List.mem_or_eq_of_mem_set hx3 with hx4 | rfl
          · exact hx4
          · have hlnil : l ≠ [] := by
              intro h0; rw [h0] at hlt; simp at hlt
            rw [List.getLast?_eq_getLast_of_ne_nil hlnil]
            exact List.getLast_mem hlnil
        · rw [if_neg he] at hx
          exact ih _ _ _ hx
      · rw [if_neg hlt] at hx
        exact hx

theorem compactGo_no_empty : ∀ (fuel : Nat) (l : List (List Nat)) (i : Nat),
    2 * l.length - i < fuel →
    (∀ m, m < i → ∀ h2 : m < l.length, l[m] ≠ []) →
    ∀ x ∈ compactGo fuel l i, x ≠ [] := by
  intro fuel
  induction fuel with
  | zero => intro l i hf; omega
  | succ fuel ih =>
      intro l i hf hin x hx
      rw [compactGo] at hx
      by_cases hlt : i < l.length
      · rw [if_pos hlt] at hx
        by_cases he : (l.getD i []).isEmpty
        · rw [if_pos he] at hx
          refine ih _ _ ?_ ?_ _ hx
          · simp only [List.length_dropLast, List.length_set]
            omega
          · intro m hm h2 hmem
            have h2' : m < l.length := by
              simp only [List.length_dropLast, List.length_set] at h2
              omega
            have hmi : m ≠ i := by omega
            have hstep : ((l.set i (l.getLast?.getD [])).dropLast)[m] =
                l[m] := by
              rw [List.getElem_dropLast]
              exact List.getElem_set_ne (by omega) _
            rw [hstep] at hmem
            exact hin m hm h2' hmem
        · rw [if_neg he] at hx
          refine ih _ _ ?_ ?_ _ hx
          · omega
          · intro m hm h2 hmem
            by_cases hmi : m = i
            · subst hmi
              rw [← getD_nil_eq_getElem _ _ h2] at hmem
              rw [hmem] at he
              exact he rfl
            · exact hin m (by omega) h2 hmem
      · rw [if_neg hlt] at hx
        obtain ⟨m, hm, rfl⟩ := List.mem_iff_getElem.mp hx
        exact hin m (by omega) hm

theorem mergeStep_min2 (st : AggSt) (i j : Nat)
    (h : ∀ c ∈ st.chains, c ≠ [] → 2 ≤ c.length) :
    ∀ c ∈ (mergeStep st i j).chains, c ≠ [] → 2 ≤ c.length := by
  simp only [mergeStep]
  split
  · exact h
  · split
    · exact h
    · split
      · next h1 h2 h3 =>
          intro c hc hcne
          dsimp only at hc
          rcases List.mem_or_eq_of_mem_set hc with hc2 | rfl
          · rcases List.mem_or_eq_of_mem_set hc2 with hc3 | rfl
            · exact h c hc3 hcne
            · have hne_i : st.chains.getD i [] ≠ [] := by
                intro h0; rw [h0] at h1; exact h1 rfl
              have hi : i < st.chains.length :=
                getD_nonempty_lt _ _ (by simpa using hne_i)
              have hmem : st.chains.getD i [] ∈ st.chains := by
                rw [getD_nil_eq_getElem _ _ hi]
                exact List.getElem_mem hi
              have := h _ hmem hne_i
              have : 2 ≤ (st.chains.getD i []).length := this
              simp only [List.length_append]
              omega
          · exact absurd rfl hcne
      · exact h

theorem foldl_pres {α : Type} {P : AggSt → Prop} {f : AggSt → α → AggSt}
    (hf : ∀ st x, P st → P (f st x)) :
    ∀ (l : List α) (st : AggSt), P st → P (l.foldl f st) := by
  intro l
  induction l with
  | nil => intro st h; exact h
  | cons x xs ih => intro st h; exact ih (f st x) (hf st x h)

theorem detectEdges_len (cp : Expr → Bool) (gs : List GroupInfo) :
    ∀ c ∈ detectEdges cp gs, c.length = 2 := by
  intro c hc
  simp only [detectEdges, List.mem_flatMap, List.mem_filterMap] at hc
  obtain ⟨p, _, q, _, hq⟩ := hc
  split_ifs at hq with h1 h2
  injection hq with hq2
  subst hq2
  rfl

theorem runAgglom_min2 : ∀ (fuel : Nat) (chains : List (List Nat)),
    (∀ c ∈ chains, c ≠ [] → 2 ≤ c.length) →
    ∀ c ∈ (runAgglom fuel chains).1, c ≠ [] → 2 ≤ c.length := by
  intro fuel
  induction fuel with
  | zero => intro chains h; exact h
  | succ fuel ih =>
      intro chains h
      rw [runAgglom]
      have hdouble : ∀ c ∈ (sweepDouble chains).chains, c ≠ [] → 2 ≤ c.length := by
        refine foldl_pres (P := fun st => ∀ c ∈ st.chains, c ≠ [] → 2 ≤ c.length)
          ?_ _ ⟨chains, true⟩ h
        intro st x hst
        exact foldl_pres (P := fun st => ∀ c ∈ st.chains, c ≠ [] → 2 ≤ c.length)
          (fun st' y hst' => mergeStep_min2 st' x y hst') _ st hst
      have hsweep : ∀ c ∈ (sweepChains chains).chains, c ≠ [] → 2 ≤ c.length := by
        intro c hc
        simp only [sweepChains] at hc
        exact hdouble c (compactGo_subset _ _ _ _ hc)
      by_cases hd : (sweepChains chains).done
      · rw [if_pos hd]
        exact hsweep
      · rw [if_neg hd]
        exact ih _ hsweep

theorem runAgglom_no_empty : ∀ (fuel : Nat) (chains : List (List Nat)),
    (∀ c ∈ chains, c ≠ []) →
    ∀ c ∈ (runAgglom fuel chains).1, c ≠ [] := by
  intro fuel
  induction fuel with
  | zero => intro chains h; exact h
  | succ fuel ih =>
      intro chains h
      rw [runAgglom]
      have hsweep : ∀ c ∈ (sweepChains chains).chains, c ≠ [] := by
        intro c hc
        simp only [sweepChains, compactLoop] at hc
        refine compactGo_no_empty _ _ 0 (by omega) (by omega) c hc
      by_cases hd : (sweepChains chains).done
      · rw [if_pos hd]
        exact hsweep
      · rw [if_neg hd]
        exact ih _ hsweep


theorem SZ_eq : SZ = 18446744073709551616 := by norm_num [SZ]

theorem trim_min2_aux (k : Nat) (hk1 : 1 ≤ k) (hk2 : k < SZ) :
    ∀ (chains : List (List Nat)) (sz : Nat), sz ≤ k →
    (∀ c ∈ chains, 2 ≤ c.length) →
    ∀ c ∈ trimChains k chains sz, 2 ≤ c.length := by
  rw [SZ_eq] at hk2
  intro chains
  induction chains with
  | nil =>
      intro sz _ _ c hc
      simp [trimChains] at hc
  | cons c0 rest ih =>
      intro sz hsz hall c hc
      rw [trimChains] at hc
      by_cases hover : sz + c0.length > k
      · rw [if_pos hover] at hc
        by_cases hpart : sz < (k + SZ - 1) % SZ
        · rw [if_pos hpart] at hc
          simp only [List.mem_singleton] at hc
          subst hc
          rw [SZ_eq] at hpart ⊢
          have hmod1 : (k + 18446744073709551616 - 1) % 18446744073709551616 = k - 1 := by
            omega
          rw [hmod1] at hpart
          have hmod2 : (k + 18446744073709551616 - sz) % 18446744073709551616 = k - sz := by
            omega
          rw [hmod2]
          have h2 := hall c0 (by simp)
          rw [List.length_take]
          omega
        · rw [if_neg hpart] at hc
          simp at hc
      · rw [if_neg hover] at hc
        rcases List.mem_cons.mp hc with rfl | hc2
        · exact hall c (by simp)
        · exact ih (sz + c0.length) (by omega) (fun d hd => hall d (by simp [hd])) c hc2

theorem trim_sum_aux (k : Nat) (hk2 : k < SZ) :
    ∀ (chains : List (List Nat)) (sz : Nat), sz ≤ k →
    sz + ((trimChains k chains sz).map List.length).sum ≤ k := by
  rw [SZ_eq] at hk2
  intro chains
  induction chains with
  | nil =>
      intro sz hsz
      simp [trimChains]
      omega
  | cons c0 rest ih =>
      intro sz hsz
      rw [trimChains]
      by_cases hover : sz + c0.length > k
      · rw [if_pos hover]
        by_cases hpart : sz < (k + SZ - 1) % SZ
        · rw [if_pos hpart]
          rw [SZ_eq]
          have hmod2 : (k + 18446744073709551616 - sz) % 18446744073709551616 = k - sz := by
            omega
          rw [hmod2]
          simp only [List.map_cons, List.map_nil, List.sum_cons, List.sum_nil,
            List.length_take]
          omega
        · rw [if_neg hpart]
          simpa using hsz
      · rw [if_neg hover]
        simp only [List.map_cons, List.sum_cons]
        have := ih (sz + c0.length) (by omega)
        omega

theorem btv_ne_nil : ∀ (s : Stmt), block_to_vector s ≠ [] := by
  intro s
  induction s with
  | block f r ihf ihr =>
      simp only [block_to_vector]
      intro h
      exact ihf (List.append_eq_nil.mp h).1
  | _ => simp [block_to_vector]

theorem btv_nonblock : ∀ (s : Stmt), ∀ x ∈ block_to_vector s, isBlockStmt x = false := by
  intro s
  induction s with
  | block f r ihf ihr =>
      intro x hx
      simp only [block_to_vector] at hx
      rcases List.mem_append.mp hx with h | h
      · exact ihf x h
      · exact ihr x h
  | _ =>
      intro x hx
      simp only [block_to_vector, List.mem_singleton] at hx
      subst hx
      rfl

theorem btv_singleton_of_nonblock (s : Stmt) (h : isBlockStmt s = false) :
    block_to_vector s = [s] := by
  cases s <;> simp [block_to_vector] <;> simp [isBlockStmt] at h

theorem blockMake2_nonblock (f r : Stmt) (h : isBlockStmt f = false) :
    blockMake2 f r = Stmt.block f r := by
  cases f <;> simp [blockMake2] <;> simp [isBlockStmt] at h

theorem btv_blockMake2 : ∀ (a b : Stmt),
    block_to_vector (blockMake2 a b) = block_to_vector a ++ block_to_vector b := by
  intro a
  induction a with
  | block f r ihf ihr =>
      intro b
      simp only [blockMake2, block_to_vector, ihr b, List.append_assoc]
  | _ => intro b; simp [blockMake2, block_to_vector]

theorem btv_mkList : ∀ (l : List Stmt) (t : Stmt), blockMakeList l = some t →
    block_to_vector t = l.flatMap block_to_vector := by
  intro l
  induction l with
  | nil => intro t ht; simp [blockMakeList] at ht
  | cons s rest ih =>
      intro t ht
      cases rest with
      | nil =>
          simp only [blockMakeList, Option.some_inj] at ht
          subst ht
          simp
      | cons s2 r2 =>
          simp only [blockMakeList] at ht
          rcases Option.map_eq_some'.mp ht with ⟨t2, h1, h2⟩
          subst h2
          rw [btv_blockMake2, ih _ h1]
          simp

theorem mkList_ne_nil_isSome : ∀ (l : List Stmt), l ≠ [] → (blockMakeList l).isSome := by
  intro l
  induction l with
  | nil => intro h; exact absurd rfl h
  | cons s rest ih =>
      intro _
      cases rest with
      | nil => simp [blockMakeList]
      | cons s2 r2 =>
          have h2 := ih (by simp)
          rcases Option.isSome_iff_exists.mp h2 with ⟨t, ht⟩
          simp [blockMakeList, ht]

theorem spineCanon_blockMake2 : ∀ (a b : Stmt), spineCanon a = true →
    spineCanon b = true → spineCanon (blockMake2 a b) = true := by
  intro a
  induction a with
  | block f r ihf ihr =>
      intro b ha hb
      simp only [spineCanon, Bool.and_eq_true] at ha
      simp only [blockMake2, spineCanon, Bool.and_eq_true]
      exact ⟨ha.1, ihr b ha.2 hb⟩
  | _ =>
      intro b ha hb
      simp only [blockMake2, spineCanon, Bool.and_eq_true]
      refine ⟨?_, hb⟩
      simp [isBlockStmt]

theorem spineCanon_mkList : ∀ (l : List Stmt) (t : Stmt),
    (∀ x ∈ l, spineCanon x = true) → blockMakeList l = some t →
    spineCanon t = true := by
  intro l
  induction l with
  | nil => intro t _ ht; simp [blockMakeList] at ht
  | cons s rest ih =>
      intro t hall ht
      cases rest with
      | nil =>
          simp only [blockMakeList, Option.some_inj] at ht
          subst ht
          exact hall s (by simp)
      | cons s2 r2 =>
          simp only [blockMakeList] at ht
          rcases Option.map_eq_some'.mp ht with ⟨t2, h1, h2⟩
          subst h2
          exact spineCanon_blockMake2 _ _ (hall s (by simp))
            (ih t2 (fun x hx => hall x (by simp [hx])) h1)

theorem blockCanonical_spine : ∀ (s : Stmt), blockCanonical s = true →
    spineCanon s = true := by
  intro s
  induction s with
  | block f r ihf ihr =>
      intro h
      simp only [blockCanonical, Bool.and_eq_true] at h
      simp only [spineCanon, Bool.and_eq_true]
      exact ⟨h.1.1, ihr h.2⟩
  | _ => intro h; simp [spineCanon]

theorem btv_canonical_mem : ∀ (s : Stmt), blockCanonical s = true →
    ∀ x ∈ block_to_vector s, blockCanonical x = true := by
  intro s
  induction s with
  | block f r ihf ihr =>
      intro h x hx
      simp only [blockCanonical, Bool.and_eq_true] at h
      simp only [block_to_vector] at hx
      rcases List.mem_append.mp hx with h2 | h2
      · exact ihf h.1.2 x h2
      · exact ihr h.2 x h2
  | _ =>
      intro h x hx
      simp only [block_to_vector, List.mem_singleton] at hx
      subst hx
      exact h

theorem mkList_btv : ∀ (s : Stmt), spineCanon s = true →
    blockMakeList (block_to_vector s) = some s := by
  intro s
  induction s with
  | block f r ihf ihr =>
      intro hs
      simp only [spineCanon, Bool.and_eq_true] at hs
      have hf : block_to_vector f = [f] :=
        btv_singleton_of_nonblock f (by simpa using hs.1)
      have hr := ihr hs.2
      simp only [block_to_vector, hf, List.singleton_append]
      obtain ⟨a, l2, hal⟩ : ∃ a l2, block_to_vector r = a :: l2 := by
        cases hbtv : block_to_vector r with
        | nil => exact absurd hbtv (btv_ne_nil r)
        | cons a l2 => exact ⟨a, l2, rfl⟩
      rw [hal]
      rw [hal] at hr
      simp only [blockMakeList, hr, Option.map_some']
      rw [blockMake2_nonblock f r (by simpa using hs.1)]
  | _ =>
      intro hs
      simp [block_to_vector, blockMakeList]

theorem spine_btv_inj (s t : Stmt) (hs : spineCanon s = true)
    (ht : spineCanon t = true) (h : block_to_vector s = block_to_vector t) :
    s = t := by
  have h1 := mkList_btv s hs
  have h2 := mkList_btv t ht
  rw [h] at h1
  rw [h1] at h2
  exact Option.some_inj.mp h2

theorem isStore_nonblock (s : Stmt) (h : isStoreStmt s = true) :
    isBlockStmt s = false := by
  cases s <;> first | rfl | simp [isStoreStmt] at h

theorem isStore_spine (s : Stmt) (h : isStoreStmt s = true) :
    spineCanon s = true := by
  cases s <;> first | rfl | simp [isStoreStmt] at h

theorem flatMap_btv_nonblock : ∀ (l : List Stmt),
    (∀ x ∈ l, isBlockStmt x = false) → l.flatMap block_to_vector = l := by
  intro l
  induction l with
  | nil => intro _; rfl
  | cons x rest ih =>
      intro h
      simp only [List.flatMap_cons]
      rw [btv_singleton_of_nonblock x (h x (by simp)), ih (fun y hy => h y (by simp [hy]))]
      rfl

theorem lift_no_chains (cp : Expr → Bool) (k : Nat) (inCons : List String)
    (lin : LinScope) (lets : List (String × Expr)) (fresh : Nat) (s : Stmt)
    (h : runHasNoChains cp inCons lin s = true) :
    lift_carried_values cp k inCons lin lets fresh s = some (s, [], fresh) := by
  unfold runHasNoChains at h
  unfold lift_carried_values
  simp only [h, if_true]

theorem rw_identity (cp : Expr → Bool) (k : Nat) (inCons : List String) :
    ∀ fuel : Nat,
      (∀ (lin : LinScope) (lets : List (String × Expr)) (m : Nat) (b : Stmt),
        blockCanonical b = true → noCarryRw cp inCons fuel lin b = true →
        rwMutate cp k inCons fuel lin lets m b = some (b, [], m)) ∧
      (∀ (lin : LinScope) (lets : List (String × Expr)) (m : Nat)
        (l pending acc : List Stmt),
        (∀ x ∈ l, blockCanonical x = true ∧ isBlockStmt x = false) →
        (∀ x ∈ pending, isStoreStmt x = true) →
        (∀ x ∈ acc, spineCanon x = true) →
        noCarryGo cp inCons fuel lin l pending = true →
        ∃ res, rwBlockGo cp k inCons fuel lin lets m l pending acc =
            some (res, [], m) ∧
          res.flatMap block_to_vector = acc.flatMap block_to_vector ++ pending ++ l ∧
          (∀ x ∈ res, spineCanon x = true)) := by
  intro fuel
  induction fuel with
  | zero =>
      constructor
      · intro lin lets m b _ hno
        simp [noCarryRw] at hno
      · intro lin lets m l pending acc _ _ _ hno
        simp [noCarryGo] at hno
  | succ fuel ih =>
      constructor
      · intro lin lets m b hc hno
        cases b with
        | store nm v i p =>
            simp only [noCarryRw] at hno
            simp only [rwMutate]
            exact lift_no_chains cp k inCons lin lets m _ hno
        | letStmt nm v b =>
            simp only [noCarryRw] at hno
            simp only [blockCanonical] at hc
            simp only [rwMutate]
            rw [ih.1 ((nm, is_linear v lin) :: lin) (lets ++ [(nm, v)]) m b hc hno]
            rfl
        | block f r =>
            simp only [noCarryRw] at hno
            have hcs := hc
            simp only [blockCanonical, Bool.and_eq_true] at hcs
            have hl : ∀ x ∈ block_to_vector (Stmt.block f r),
                blockCanonical x = true ∧ isBlockStmt x = false :=
              fun x hx => ⟨btv_canonical_mem _ hc x hx, btv_nonblock _ x hx⟩
            obtain ⟨res, hres, hflat, hspine⟩ := ih.2 lin lets m
              (block_to_vector (Stmt.block f r)) [] []
              hl (by simp) (by simp) hno
            have hresne : res ≠ [] := by
              intro h0
              rw [h0] at hflat
              simp at hflat
              first
              | exact btv_ne_nil (Stmt.block f r) hflat
              | exact btv_ne_nil (Stmt.block f r) hflat.symm
            rcases Option.isSome_iff_exists.mp (mkList_ne_nil_isSome res hresne)
              with ⟨t, hmk⟩
            have hbtv_t : block_to_vector t = block_to_vector (Stmt.block f r) := by
              rw [btv_mkList res t hmk, hflat]
              simp
            have hspinet : spineCanon t = true := spineCanon_mkList res t hspine hmk
            have hteq : t = Stmt.block f r :=
              spine_btv_inj t _ hspinet (blockCanonical_spine _ hc) hbtv_t
            subst hteq
            simp only [rwMutate]
            simp only [hres, hmk, Option.bind_eq_bind, Option.some_bind]
            rfl
        | forS nm mn ex ft b => simp only [rwMutate]
        | ifThenElse c t => simp only [rwMutate]
        | ifThenElseE c t e => simp only [rwMutate]
        | producerConsumer nm ip b =>
            simp only [noCarryRw] at hno
            simp only [blockCanonical] at hc
            simp only [rwMutate]
            rw [ih.1 lin lets m b hc hno]
            rfl
        | allocate nm t mm ex cnd b =>
            simp only [noCarryRw] at hno
            simp only [blockCanonical] at hc
            simp only [rwMutate]
            rw [ih.1 lin lets m b hc hno]
            rfl
      · intro lin lets m l pending acc hl hp hacc hno
        cases l with
        | nil =>
            simp only [noCarryGo] at hno
            by_cases hpe : pending.isEmpty
            · rw [if_pos hpe] at hno
              refine ⟨acc, ?_, ?_, hacc⟩
              · simp only [rwBlockGo]
                rw [if_pos hpe]
              · have : pending = [] := by simpa [List.isEmpty_iff] using hpe
                subst this
                simp
            · rw [if_neg hpe] at hno
              have hpne : pending ≠ [] := by
                simpa [List.isEmpty_iff] using hpe
              rcases Option.isSome_iff_exists.mp (mkList_ne_nil_isSome pending hpne)
                with ⟨pb, hmk⟩
              rw [hmk] at hno
              have hlift := lift_no_chains cp k inCons lin lets m pb hno
              refine ⟨acc ++ [pb], ?_, ?_, ?_⟩
              · simp only [rwBlockGo]
                rw [if_neg hpe, hmk]
                simp only [Option.bind_eq_bind, Option.some_bind, hlift]
                try rfl
              · simp only [List.flatMap_append, List.flatMap_cons, List.flatMap_nil,
                  List.append_nil]
                rw [btv_mkList pending pb hmk,
                  flatMap_btv_nonblock pending (fun x hx => isStore_nonblock x (hp x hx))]
                try simp
              · intro x hx
                rcases List.mem_append.mp hx with h2 | h2
                · exact hacc x h2
                · simp only [List.mem_singleton] at h2
                  subst h2
                  exact spineCanon_mkList pending x
                    (fun y hy => isStore_spine y (hp y hy)) hmk
        | cons x rest =>
            simp only [noCarryGo] at hno
            by_cases hst : isStoreStmt x
            · rw [if_pos hst] at hno
              obtain ⟨res, hres, hflat, hspine⟩ := ih.2 lin lets m rest (pending ++ [x]) acc
                (fun y hy => hl y (by simp [hy]))
                (by
                  intro y hy
                  rcases List.mem_append.mp hy with h2 | h2
                  · exact hp y h2
                  · simp only [List.mem_singleton] at h2
                    subst h2
                    exact hst)
                hacc hno
              refine ⟨res, ?_, ?_, hspine⟩
              · simp only [rwBlockGo]
                rw [if_pos hst]
                exact hres
              · rw [hflat]
                simp
            · rw [if_neg hst] at hno
              by_cases hpe : pending.isEmpty
              · rw [if_pos hpe] at hno
                rw [Bool.and_eq_true] at hno
                have hx := hl x (by simp)
                have hmut := ih.1 lin lets m x hx.1 hno.1
                obtain ⟨res, hres, hflat, hspine⟩ := ih.2 lin lets m rest [] (acc ++ [x])
                  (fun y hy => hl y (by simp [hy]))
                  (by simp)
                  (by
                    intro y hy
                    rcases List.mem_append.mp hy with h2 | h2
                    · exact hacc y h2
                    · simp only [List.mem_singleton] at h2
                      subst h2
                      exact blockCanonical_spine y hx.1)
                  hno.2
                refine ⟨res, ?_, ?_, hspine⟩
                · simp only [rwBlockGo]
                  rw [if_neg hst, if_pos hpe]
                  simp only [Option.bind_eq_bind, hmut, Option.some_bind, hres]
                  rfl
                · rw [hflat]
                  have hpend : pending = [] := by simpa [List.isEmpty_iff] using hpe
                  subst hpend
                  simp [List.flatMap_append, btv_singleton_of_nonblock x hx.2]
              · rw [if_neg hpe] at hno
                have hpne : pending ≠ [] := by
                  simpa [List.isEmpty_iff] using hpe
                rcases Option.isSome_iff_exists.mp (mkList_ne_nil_isSome pending hpne)
                  with ⟨pb, hmk⟩
                rw [hmk] at hno
                simp only [Bool.and_eq_true] at hno
                have hlift := lift_no_chains cp k inCons lin lets m pb hno.1.1
                have hx := hl x (by simp)
                have hmut := ih.1 lin lets m x hx.1 hno.1.2
                have hpbspine : spineCanon pb = true :=
                  spineCanon_mkList pending pb
                    (fun y hy => isStore_spine y (hp y hy)) hmk
                obtain ⟨res, hres, hflat, hspine⟩ := ih.2 lin lets m rest []
                  (acc ++ [pb, x])
                  (fun y hy => hl y (by simp [hy]))
                  (by simp)
                  (by
                    intro y hy
                    rcases List.mem_append.mp hy with h2 | h2
                    · exact hacc y h2
                    · rcases List.mem_cons.mp h2 with h2 | h2
                      · subst h2
                        exact hpbspine
                      · simp only [List.mem_singleton] at h2
                        subst h2
                        exact blockCanonical_spine y hx.1)
                  hno.2
                refine ⟨res, ?_, ?_, hspine⟩
                · simp only [rwBlockGo]
                  rw [if_neg hst, if_neg hpe, hmk]
                  simp only [Option.bind_eq_bind, Option.some_bind, hlift, hmut, hres]
                  rfl
                · rw [hflat]
                  simp [List.flatMap_append, btv_mkList pending pb hmk,
                    flatMap_btv_nonblock pending (fun y hy => isStore_nonblock y (hp y hy)),
                    btv_singleton_of_nonblock x hx.2]

theorem lc_identity (cp : Expr → Bool) (k : Nat) :
    ∀ (S : Stmt) (inCons : List String) (n : Nat), noEligibleFor S = true →
      lcMutate cp k inCons n S = some (S, n) := by
  intro S
  induction S with
  | store nm v i p => intro inCons n _; rfl
  | letStmt nm v b ih =>
      intro inCons n h
      simp only [noEligibleFor] at h
      simp only [lcMutate]
      rw [ih inCons n h]
      rfl
  | block f r ihf ihr =>
      intro inCons n h
      simp only [noEligibleFor, Bool.and_eq_true] at h
      simp only [lcMutate]
      rw [ihf inCons n h.1]
      simp only [Option.bind_eq_bind, Option.some_bind]
      rw [ihr inCons n h.2]
      simp
  | forS nm mn ex ft b ih =>
      intro inCons n h
      simp only [noEligibleFor, Bool.and_eq_true] at h
      have hcond : ¬(ft = ForType.serial ∧ isConstOne ex = false) := by
        intro hand
        have h1 := h.1
        rw [hand.1, hand.2] at h1
        simp at h1
      simp only [lcMutate]
      rw [if_neg hcond]
      rw [ih inCons n h.2]
      rfl
  | ifThenElse c t ih =>
      intro inCons n h
      simp only [noEligibleFor] at h
      simp only [lcMutate]
      rw [ih inCons n h]
      rfl
  | ifThenElseE c t e iht ihe =>
      intro inCons n h
      simp only [noEligibleFor, Bool.and_eq_true] at h
      simp only [lcMutate]
      rw [iht inCons n h.1]
      simp only [Option.bind_eq_bind, Option.some_bind]
      rw [ihe inCons n h.2]
      rfl
  | producerConsumer nm ip b ih =>
      intro inCons n h
      simp only [noEligibleFor] at h
      cases ip with
      | true =>
          simp only [lcMutate, if_true]
          rw [ih inCons n h]
          rfl
      | false =>
          simp only [lcMutate, Bool.false_eq_true, if_false]
          rw [ih (nm :: inCons) n h]
          rfl
  | allocate nm t mm ex cnd b ih =>
      intro inCons n h
      simp only [noEligibleFor] at h
      simp only [lcMutate]
      rw [ih inCons n h]
      rfl

theorem edgeCond_true_iff (cp : Expr → Bool) (linear : LinScope) (gi gj : List Expr) :
    edgeCond cp (mkGroupInfo linear gi) (mkGroupInfo linear gj) = true ↔
      (loadName (gi.headD Expr.argNil) = loadName (gj.headD Expr.argNil) ∧
       (∃ nj, step_forwards (loadIndex (gj.headD Expr.argNil)) linear = some nj ∧
         (loadIndex (gi.headD Expr.argNil) = nj ∨
           ((loadIndex (gi.headD Expr.argNil)).typeOf = nj.typeOf ∧
             cp (.eqE (cseModel (loadIndex (gi.headD Expr.argNil))) (cseModel nj)) = true))) ∧
       (∃ pj, step_forwards (loadPred (gj.headD Expr.argNil)) linear = some pj ∧
         (loadPred (gi.headD Expr.argNil) = pj ∨
           ((loadPred (gi.headD Expr.argNil)).typeOf = pj.typeOf ∧
             cp (.eqE (cseModel (loadPred (gi.headD Expr.argNil))) (cseModel pj)) = true)))) := by
  simp only [edgeCond, mkGroupInfo]
  cases hn : step_forwards (loadIndex (gj.headD Expr.argNil)) linear with
  | none => simp [hn]
  | some nj =>
      cases hp : step_forwards (loadPred (gj.headD Expr.argNil)) linear with
      | none => simp [hn, hp]
      | some pj =>
          simp only [hn, hp, Bool.and_eq_true, Bool.or_eq_true, decide_eq_true_eq,
            Option.some_inj]
          constructor
          · rintro ⟨⟨h1, h2⟩, h3⟩
            exact ⟨h1, ⟨nj, rfl, h2⟩, ⟨pj, rfl, h3⟩⟩
          · rintro ⟨h1, ⟨nj2, hnj2, h2⟩, ⟨pj2, hpj2, h3⟩⟩
            subst hnj2
            subst hpj2
            exact ⟨⟨h1, h2⟩, h3⟩

/-- Unfolding of the linearity analysis at a variable. -/
theorem is_linear_var_eq (t : Ty) (nm : String) (sc : LinScope) :
    is_linear (.var t nm) sc =
      if (Expr.var t nm).typeOf ≠ i32 then none
      else match scopeGet sc nm with
        | some step => step
        | none => some (makeZero t) := rfl

/-- Unfolding of the linearity analysis at an integer immediate. -/
theorem is_linear_intImm_eq (t : Ty) (v : Int) (sc : LinScope) :
    is_linear (.intImm t v) sc =
      if (Expr.intImm t v).typeOf ≠ i32 then none else some (makeZero t) := rfl

/-- Unfolding of the linearity analysis at an addition. -/
theorem is_linear_add_eq (a b : Expr) (sc : LinScope) :
    is_linear (.add a b) sc =
      if (Expr.add a b).typeOf ≠ i32 then none
      else
        if (is_linear b sc).elim false isConstZero then is_linear a sc
        else if (is_linear a sc).elim false isConstZero then is_linear b sc
        else match is_linear a sc, is_linear b sc with
          | some xa, some xb => some (.add xa xb)
          | _, _ => none := rfl

/-- Unfolding of the linearity analysis at a subtraction. -/
theorem is_linear_sub_eq (a b : Expr) (sc : LinScope) :
    is_linear (.sub a b) sc =
      if (Expr.sub a b).typeOf ≠ i32 then none
      else
        if (is_linear b sc).elim false isConstZero then is_linear a sc
        else match is_linear a sc, is_linear b sc with
          | some xa, some xb => some (.sub xa xb)
          | _, _ => none := rfl

/-- Unfolding of the linearity analysis at a multiplication. -/
theorem is_linear_mul_eq (a b : Expr) (sc : LinScope) :
    is_linear (.mul a b) sc =
      if (Expr.mul a b).typeOf ≠ i32 then none
      else
        if (is_linear a sc).elim false isConstZero &&
            (is_linear b sc).elim false isConstZero then is_linear a sc
        else if (is_linear a sc).elim false isConstZero then
          match is_linear b sc with
          | some xb => some (.mul a xb)
          | none => none
        else if (is_linear b sc).elim false isConstZero then
          match is_linear a sc with
          | some xa => some (.mul xa b)
          | none => none
        else none := rfl

/-- Unfolding of the linearity analysis at a ramp. -/
theorem is_linear_ramp_eq (base stride : Expr) (l : Nat) (sc : LinScope) :
    is_linear (.ramp base stride l) sc =
      if (Expr.ramp base stride l).typeOf ≠ i32 then none
      else
        if (is_linear stride sc).elim false isConstZero then is_linear base sc
        else none := rfl

/-- Unfolding of the linearity analysis at a broadcast. -/
theorem is_linear_broadcast_eq (v : Expr) (l : Nat) (sc : LinScope) :
    is_linear (.broadcast v l) sc =
      if (Expr.broadcast v l).typeOf ≠ i32 then none else is_linear v sc := rfl

/-- A constant-zero expression evaluates to zero in any environment. -/
theorem evalE_constZero (z : Expr) (h : isConstZero z = true) (ρ : String → Int) :
    evalE z ρ = 0 := by
  induction z <;> simp only [isConstZero] at h <;> simp_all [evalE]

/-- Inserting a safe load into the groups preserves all-members-safe. -/
theorem addLoadToGroups_safe (inConsume : List String) (l : Expr)
    (gs : List (List Expr))
    (hacc : ∀ g ∈ gs, ∀ x ∈ g, loadIsSafe inConsume x = true)
    (hl : loadIsSafe inConsume l = true) :
    ∀ g ∈ addLoadToGroups l gs, ∀ x ∈ g, loadIsSafe inConsume x = true := by
  intro g hg x hx
  simp only [addLoadToGroups] at hg
  split_ifs at hg
  · rcases List.mem_map.mp hg with ⟨g0, hg0, hg0e⟩
    by_cases hc : g0.headD Expr.argNil = l
    · rw [if_pos hc] at hg0e
      subst hg0e
      rcases List.mem_append.mp hx with hx0 | hx1
      · exact hacc g0 hg0 x hx0
      · rw [List.mem_singleton.mp hx1]; exact hl
    · rw [if_neg hc] at hg0e
      subst hg0e
      exact hacc g0 hg0 x hx
  · rcases List.mem_append.mp hg with hgm | hgl
    · rcases List.mem_map.mp hgm with ⟨g0, hg0, hg0e⟩
      by_cases hc : g0.headD Expr.argNil = l
      · rw [if_pos hc] at hg0e
        subst hg0e
        rcases List.mem_append.mp hx with hx0 | hx1
        · exact hacc g0 hg0 x hx0
        · rw [List.mem_singleton.mp hx1]; exact hl
      · rw [if_neg hc] at hg0e
        subst hg0e
        exact hacc g0 hg0 x hx
    · rw [List.mem_singleton.mp hgl] at hx
      rw [List.mem_singleton.mp hx]
      exact hl

/-- The grouping fold keeps only safe loads, from any starting
accumulator whose members are all safe. -/
theorem groupLoads_go_safe (inConsume : List String) (loads : List Expr)
    (acc : List (List Expr))
    (hacc : ∀ g ∈ acc, ∀ x ∈ g, loadIsSafe inConsume x = true) :
    ∀ g ∈ loads.foldl
        (fun gs l => if loadIsSafe inConsume l then addLoadToGroups l gs else gs) acc,
      ∀ x ∈ g, loadIsSafe inConsume x = true := by
  induction loads generalizing acc with
  | nil => exact hacc
  | cons l rest ih =>
      intro g hg x hx
      simp only [List.foldl_cons] at hg
      by_cases hl : loadIsSafe inConsume l = true
      · rw [if_pos hl] at hg
        exact ih (addLoadToGroups l acc)
          (addLoadToGroups_safe inConsume l acc hacc hl) g hg x hx
      · rw [if_neg hl] at hg
        exact ih acc hacc g hg x hx

theorem applyRedirs_append (R1 R2 : List (Expr × Expr)) (s : Stmt) :
    applyRedirs (R1 ++ R2) s = applyRedirs R2 (applyRedirs R1 s) := by
  simp [applyRedirs, List.foldl_append]

theorem foldl_replace_map (g : List Expr) (ls : Expr) (core : Stmt) :
    g.foldl (fun co l => replaceExprInStmt l ls co) core =
      applyRedirs (g.map (fun l => (l, ls))) core := by
  simp [applyRedirs, List.foldl_map]

theorem storeNames_replace (n r : Expr) : ∀ (s : Stmt),
    storeNames (replaceExprInStmt n r s) = storeNames s := by
  intro s
  induction s <;> simp_all [replaceExprInStmt, storeNames]

theorem storeNames_applyRedirs : ∀ (R : List (Expr × Expr)) (s : Stmt),
    storeNames (applyRedirs R s) = storeNames s := by
  intro R
  induction R with
  | nil => intro s; rfl
  | cons p R2 ih =>
      intro s
      have h1 : applyRedirs (p :: R2) s =
          applyRedirs R2 (replaceExprInStmt p.1 p.2 s) := rfl
      rw [h1, ih, storeNames_replace]

theorem findLoadsE_loads : ∀ (e : Expr) (l : Expr),
    l ∈ findLoadsE e → isLoad l = true := by
  intro e
  induction e with
  | var t nm => intro l hl; simp [findLoadsE] at hl
  | intImm t v => intro l hl; simp [findLoadsE] at hl
  | uintImm t v => intro l hl; simp [findLoadsE] at hl
  | add a b iha ihb =>
      intro l hl
      simp only [findLoadsE] at hl
      rcases List.mem_append.mp hl with h | h
      · exact iha l h
      · exact ihb l h
  | sub a b iha ihb =>
      intro l hl
      simp only [findLoadsE] at hl
      rcases List.mem_append.mp hl with h | h
      · exact iha l h
      · exact ihb l h
  | mul a b iha ihb =>
      intro l hl
      simp only [findLoadsE] at hl
      rcases List.mem_append.mp hl with h | h
      · exact iha l h
      · exact ihb l h
  | ramp b s lanes ihb ihs =>
      intro l hl
      simp only [findLoadsE] at hl
      rcases List.mem_append.mp hl with h | h
      · exact ihb l h
      · exact ihs l h
  | broadcast v lanes ih => intro l hl; exact ih l hl
  | load t nm i p im pa ihi ihp =>
      intro l hl
      simp only [findLoadsE, List.mem_singleton] at hl
      rw [hl]; rfl
  | letE nm v b ihv ihb =>
      intro l hl
      simp only [findLoadsE] at hl
      rcases List.mem_append.mp hl with h | h
      · exact ihv l h
      · exact ihb l h
  | call t nm args ih => intro l hl; exact ih l hl
  | eqE a b iha ihb =>
      intro l hl
      simp only [findLoadsE] at hl
      rcases List.mem_append.mp hl with h | h
      · exact iha l h
      · exact ihb l h
  | gtE a b iha ihb =>
      intro l hl
      simp only [findLoadsE] at hl
      rcases List.mem_append.mp hl with h | h
      · exact iha l h
      · exact ihb l h
  | argNil => intro l hl; simp [findLoadsE] at hl
  | argCons a rest iha ihr =>
      intro l hl
      simp only [findLoadsE] at hl
      rcases List.mem_append.mp hl with h | h
      · exact iha l h
      · exact ihr l h

theorem findLoadsStmt_loads : ∀ (s : Stmt) (l : Expr),
    l ∈ findLoadsStmt s → isLoad l = true := by
  intro s
  induction s with
  | store nm v i p =>
      intro l hl
      simp only [findLoadsStmt] at hl
      rcases List.mem_append.mp hl with h | h
      · rcases List.mem_append.mp h with h2 | h2
        · exact findLoadsE_loads _ l h2
        · exact findLoadsE_loads _ l h2
      · exact findLoadsE_loads _ l h
  | letStmt nm v b ih =>
      intro l hl
      simp only [findLoadsStmt] at hl
      rcases List.mem_append.mp hl with h | h
      · exact findLoadsE_loads _ l h
      · exact ih l h
  | block f r ihf ihr =>
      intro l hl
      simp only [findLoadsStmt] at hl
      rcases List.mem_append.mp hl with h | h
      · exact ihf l h
      · exact ihr l h
  | forS nm mn ex ft b ih =>
      intro l hl
      simp only [findLoadsStmt] at hl
      rcases List.mem_append.mp hl with h | h
      · rcases List.mem_append.mp h with h2 | h2
        · exact findLoadsE_loads _ l h2
        · exact findLoadsE_loads _ l h2
      · exact ih l h
  | ifThenElse c t ih =>
      intro l hl
      simp only [findLoadsStmt] at hl
      rcases List.mem_append.mp hl with h | h
      · exact findLoadsE_loads _ l h
      · exact ih l h
  | ifThenElseE c t e iht ihe =>
      intro l hl
      simp only [findLoadsStmt] at hl
      rcases List.mem_append.mp hl with h | h
      · rcases List.mem_append.mp h with h2 | h2
        · exact findLoadsE_loads _ l h2
        · exact iht l h2
      · exact ihe l h
  | producerConsumer nm ip b ih => intro l hl; exact ih l hl
  | allocate nm t m ex cnd b ih =>
      intro l hl
      simp only [findLoadsStmt] at hl
      rcases List.mem_append.mp hl with h | h
      · rcases List.mem_append.mp h with h2 | h2
        · exact findLoadsE_loads _ l h2
        · exact findLoadsE_loads _ l h2
      · exact ih l h

theorem addLoadToGroups_pred (P : Expr → Prop) (l : Expr) (gs : List (List Expr))
    (hacc : ∀ g ∈ gs, ∀ x ∈ g, P x) (hl : P l) :
    ∀ g ∈ addLoadToGroups l gs, ∀ x ∈ g, P x := by
  intro g hg x hx
  simp only [addLoadToGroups] at hg
  split_ifs at hg
  · rcases List.mem_map.mp hg with ⟨g0, hg0, hg0e⟩
    by_cases hc : g0.headD Expr.argNil = l
    · rw [if_pos hc] at hg0e
      subst hg0e
      rcases List.mem_append.mp hx with hx0 | hx1
      · exact hacc g0 hg0 x hx0
      · rw [List.mem_singleton.mp hx1]; exact hl
    · rw [if_neg hc] at hg0e
      subst hg0e
      exact hacc g0 hg0 x hx
  · rcases List.mem_append.mp hg with hgm | hgl
    · rcases List.mem_map.mp hgm with ⟨g0, hg0, hg0e⟩
      by_cases hc : g0.headD Expr.argNil = l
      · rw [if_pos hc] at hg0e
        subst hg0e
        rcases List.mem_append.mp hx with hx0 | hx1
        · exact hacc g0 hg0 x hx0
        · rw [List.mem_singleton.mp hx1]; exact hl
      · rw [if_neg hc] at hg0e
        subst hg0e
        exact hacc g0 hg0 x hx
    · rw [List.mem_singleton.mp hgl] at hx
      rw [List.mem_singleton.mp hx]
      exact hl

theorem groupLoads_go_pred (P : Expr → Prop) (ic : List String) :
    ∀ (loads : List Expr) (acc : List (List Expr)),
      (∀ l ∈ loads, P l) → (∀ g ∈ acc, ∀ x ∈ g, P x) →
      ∀ g ∈ loads.foldl
          (fun gs l => if loadIsSafe ic l then addLoadToGroups l gs else gs) acc,
        ∀ x ∈ g, P x := by
  intro loads
  induction loads with
  | nil => intro acc _ hacc; exact hacc
  | cons l rest ih =>
      intro acc hP hacc g hg x hx
      simp only [List.foldl_cons] at hg
      by_cases hl : loadIsSafe ic l = true
      · rw [if_pos hl] at hg
        exact ih (addLoadToGroups l acc) (fun m hm => hP m (List.mem_cons_of_mem l hm))
          (addLoadToGroups_pred P l acc hacc (hP l (List.mem_cons_self l rest)))
          g hg x hx
      · rw [if_neg hl] at hg
        exact ih acc (fun m hm => hP m (List.mem_cons_of_mem l hm)) hacc g hg x hx

theorem groupLoads_pred (P : Expr → Prop) (ic : List String) (loads : List Expr)
    (hP : ∀ l ∈ loads, P l) :
    ∀ g ∈ groupLoads ic loads, ∀ x ∈ g, P x := by
  intro g hg x hx
  exact groupLoads_go_pred P ic loads [] hP
    (by intro g0 hg0; exact absurd hg0 (List.not_mem_nil g0)) g hg x hx

theorem synthRel_refl (a : SynthSt) : SynthRel a a :=
  ⟨⟨[], rfl, by simp⟩, ⟨[], by simp, by simp⟩, ⟨[], by simp, by simp⟩⟩

theorem synthRel_trans (a b c : SynthSt) (h1 : SynthRel a b) (h2 : SynthRel b c) :
    SynthRel a c := by
  obtain ⟨⟨R1, hc1, hl1⟩, ⟨nf1, hn1, hns1⟩, ⟨sh1, hs1, hss1⟩⟩ := h1
  obtain ⟨⟨R2, hc2, hl2⟩, ⟨nf2, hn2, hns2⟩, ⟨sh2, hs2, hss2⟩⟩ := h2
  refine ⟨⟨R1 ++ R2, ?_, ?_⟩, ⟨nf1 ++ nf2, ?_, ?_⟩, ⟨sh1 ++ sh2, ?_, ?_⟩⟩
  · rw [applyRedirs_append, ← hc1, ← hc2]
  · intro p hp
    rcases List.mem_append.mp hp with h | h
    · exact hl1 p h
    · exact hl2 p h
  · rw [hn2, hn1, List.append_assoc]
  · intro t ht
    rcases List.mem_append.mp ht with h | h
    · exact hns1 t h
    · exact hns2 t h
  · rw [hs2, hs1, List.append_assoc]
  · intro t ht
    rcases List.mem_append.mp ht with h | h
    · exact hss1 t h
    · exact hss2 t h

theorem synthPositions_spec (scratch : String) (groups : List (List Expr)) (n : Nat)
    (Hg : ∀ g ∈ groups, ∀ x ∈ g, isLoad x = true) :
    ∀ (c : List Nat) (i : Nat) (core core2 : Stmt) (nf : List Stmt)
      (ivals : List Expr) (shs : List Stmt),
      synthPositions scratch groups n c i core = some (core2, nf, ivals, shs) →
      (∃ R, core2 = applyRedirs R core ∧
          ∀ p ∈ R, isLoad p.1 = true ∧ isLoad p.2 = true) ∧
      (∀ t ∈ nf, isStoreStmt t = true) ∧
      (∀ t ∈ shs, isStoreStmt t = true) := by
  intro c
  induction c with
  | nil =>
      intro i core core2 nf ivals shs h
      simp only [synthPositions, Option.some_inj, Prod.mk.injEq] at h
      obtain ⟨h1, h2, _, h4⟩ := h
      subst h1; subst h2; subst h4
      exact ⟨⟨[], rfl, by simp⟩, by simp, by simp⟩
  | cons gi rest ih =>
      intro i core core2 nf ivals shs h
      simp only [synthPositions] at h
      split at h
      · exact absurd h (by simp)
      · rename_i g hget
        split at h
        · exact absurd h (by simp)
        · rename_i res core2r nfr ivalsr shsr hrec
          simp only [Option.some_inj, Prod.mk.injEq] at h
          obtain ⟨hc, hn, _, hs⟩ := h
          obtain ⟨⟨R2, hR2, hR2l⟩, hnfr, hshsr⟩ := ih (i + 1) _ _ _ _ _ hrec
          refine ⟨⟨g.map (fun l => (l,
            Expr.load (g.headD Expr.argNil).typeOf scratch
              (scratch_index i (g.headD Expr.argNil).typeOf)
              (constTrue (g.headD Expr.argNil).typeOf.lanes) false false)) ++ R2,
            ?_, ?_⟩, ?_, ?_⟩
          · rw [← hc, hR2, applyRedirs_append, foldl_replace_map]
          · intro p hp
            rcases List.mem_append.mp hp with hm | hm
            · rcases List.mem_map.mp hm with ⟨l, hlg, hle⟩
              rw [← hle]
              exact ⟨Hg g (List.get?_mem hget) l hlg, rfl⟩
            · exact hR2l p hm
          · intro t ht
            rw [← hn] at ht
            by_cases hin : i = n - 1
            · rw [if_pos hin] at ht
              rcases List.mem_cons.mp ht with h1 | h1
              · rw [h1]; rfl
              · exact hnfr t h1
            · rw [if_neg hin] at ht
              exact hnfr t ht
          · intro t ht
            rw [← hs] at ht
            by_cases hin : 0 < i
            · rw [if_pos hin] at ht
              rcases List.mem_cons.mp ht with h1 | h1
              · rw [h1]; rfl
              · exact hshsr t h1
            · rw [if_neg hin] at ht
              exact hshsr t ht

theorem synthChain_spec (lets : List (String × Expr)) (groups : List (List Expr))
    (Hg : ∀ g ∈ groups, ∀ x ∈ g, isLoad x = true) (st st' : SynthSt) (c : List Nat)
    (h : synthChain lets groups st c = some st') : SynthRel st st' := by
  simp only [synthChain, Option.bind_eq_some, Option.some_inj] at h
  obtain ⟨r, hpos, alloc, hA, h⟩ := h
  obtain ⟨⟨R, hR, hRl⟩, hnf, hshs⟩ :=
    synthPositions_spec _ groups c.length Hg c 0 st.core r.1 r.2.1 r.2.2.1 r.2.2.2 hpos
  rw [← h]
  exact ⟨⟨R, hR, hRl⟩, ⟨r.2.1, rfl, hnf⟩, ⟨r.2.2.2, rfl, hshs⟩⟩

theorem foldlM_synthChain_spec (lets : List (String × Expr))
    (groups : List (List Expr))
    (Hg : ∀ g ∈ groups, ∀ x ∈ g, isLoad x = true) :
    ∀ (chains : List (List Nat)) (st st' : SynthSt),
      List.foldlM (synthChain lets groups) st chains = some st' →
      SynthRel st st' := by
  intro chains
  induction chains with
  | nil =>
      intro st st' h
      rw [List.foldlM_nil] at h
      rw [← Option.some_inj.mp h]
      exact synthRel_refl st
  | cons c rest ih =>
      intro st st' h
      rw [List.foldlM_cons] at h
      replace h : Option.bind (synthChain lets groups st c)
          (fun init => List.foldlM (synthChain lets groups) init rest) = some st' := h
      simp only [Option.bind_eq_some] at h
      obtain ⟨st1, h1, h2⟩ := h
      exact synthRel_trans st st1 st' (synthChain_spec lets groups Hg st st1 c h1)
        (ih st1 st' h2)

theorem replaceE_load_keeps_top_let (ls : LoadShape) (r : Expr) :
    ∀ (e : Expr), exprTopIsLet e = true →
      exprTopIsLet (replaceExprE ls.toExpr r e) = true := by
  intro e he
  cases e with
  | letE nm v b =>
      obtain ⟨t, bn, ix, pr, im, pa⟩ := ls
      simp [replaceExprE, LoadShape.toExpr, exprTopIsLet]
  | _ => simp [exprTopIsLet] at he

theorem applyLoadRedirs_store_top_let :
    ∀ (R : List (LoadShape × Expr)) (nm : String) (v i p : Expr),
      exprTopIsLet v = true →
      exprTopIsLet (storeValue (applyLoadRedirs R (.store nm v i p))) = true := by
  intro R
  induction R with
  | nil =>
      intro nm v i p h
      simpa [applyLoadRedirs, storeValue] using h
  | cons pr R2 ih =>
      intro nm v i p h
      have h1 : applyLoadRedirs (pr :: R2) (Stmt.store nm v i p) =
          applyLoadRedirs R2 (replaceExprInStmt pr.1.toExpr pr.2
            (Stmt.store nm v i p)) := rfl
      rw [h1]
      simp only [replaceExprInStmt]
      exact ih nm _ _ _ (replaceE_load_keeps_top_let pr.1 pr.2 v h)

/-! Claim theorems. -/

/-- C4: for every finite set of carry edges produced by edge detection
(and indeed for every chain table), the agglomeration loop reaches its
fixed point within `length + 1` sweeps, i.e. it terminates on every
input.  (`agglomerate` runs exactly this many sweeps, so the result it
returns is the fixed point.) -/
theorem C4_agglomeration_terminates (chains : List (List Nat)) :
    (runAgglom (chains.length + 1) chains).2 = true :=
  runAgglom_reaches _ _ (Nat.lt_succ_of_le (List.countP_le_length _))

/-- C5 counterexample: for the store run `run5` the edge-detection and
agglomeration steps of the pass produce the chain table
`[[0, 1], [0, 2]]`, in which the load-group index 0 appears in two
chains; the claim that every group index appears in at most one chain
is false on this input. -/
theorem C5_cex_shared_group :
    agglomerate (detectEdges canProveModel gs5) = [[0, 1], [0, 2]] ∧
    (agglomerate (detectEdges canProveModel gs5)).countP (fun c => decide (0 ∈ c)) = 2 := by
  constructor
  · decide
  · decide

/-- C5 (amended): after chain agglomeration (before budget trimming),
every resulting chain is a sequence of load-group indices of length at
least two; a group index can, however, appear in more than one chain. -/
theorem C5_amended_chains_min2 (cp : Expr → Bool) (gs : List GroupInfo) :
    ∀ c ∈ agglomerate (detectEdges cp gs), 2 ≤ c.length := by
  intro c hc
  have hlen := detectEdges_len cp gs
  have h2 : ∀ c ∈ detectEdges cp gs, c ≠ [] → 2 ≤ c.length := by
    intro c h _
    exact le_of_eq (hlen c h).symm
  have hne : ∀ c ∈ detectEdges cp gs, c ≠ [] := by
    intro c h he
    have := hlen c h
    rw [he] at this
    simp at this
  exact runAgglom_min2 _ _ h2 c hc (runAgglom_no_empty _ _ hne c hc)

/-- C5 amended witness: the amended theorem applied to the concrete
chain table of `run5`. -/
theorem C5_amended_witness :
    2 ≤ ([0, 1] : List Nat).length :=
  C5_amended_chains_min2 canProveModel gs5 [0, 1] (by decide)

/-- C10 counterexample: with `max_carried_values = 0`, the budget
trimming of the chain table that the pass computes for the store `st1`
keeps one chain, and that chain is empty (the `size_t` expression
`(size_t)max_carried_values - 1` underflows), contradicting the claim
that every kept chain is non-empty of length at least two. -/
theorem C10_cex_empty_chain_kept :
    trimChains 0 (sortChainsByLen (agglomerate (detectEdges canProveModel gs0))) 0 = [[]] ∧
    ¬ 2 ≤ ([] : List Nat).length := by
  constructor
  · decide
  · decide

/-- C10 (amended): for every `max_carried_values` of at least one (a
32-bit int), every chain kept by the budget-trimming step is non-empty
of length at least two (given that the agglomerated chains it receives
have length at least two, which C5 establishes), so the code-synthesis
accesses to `loads[c.front()]` and to the initial scratch positions
`0 … length-2` are within bounds.  At `max_carried_values = 0` this
fails (see the counterexample): the budget comparison underflows in
`size_t` and an empty chain is kept. -/
theorem C10_amended_trim_min2 (k : Nat) (chains : List (List Nat))
    (hk1 : 1 ≤ k) (hk2 : k ≤ 2147483647)
    (hall : ∀ c ∈ chains, 2 ≤ c.length) :
    ∀ c ∈ trimChains k chains 0, 2 ≤ c.length :=
  trim_min2_aux k hk1 (by rw [SZ_eq]; omega) chains 0 (by omega) hall

/-- C10 amended witness: at `k = 8` the single chain of the `st1`
pipeline is kept whole and has length two. -/
theorem C10_amended_witness :
    [0, 1] ∈ trimChains 8 [[0, 1]] 0 ∧ 2 ≤ ([0, 1] : List Nat).length :=
  ⟨by decide,
   C10_amended_trim_min2 8 [[0, 1]] (by decide) (by decide)
     (by intro c hc; simp only [List.mem_singleton] at hc; subst hc; decide)
     [0, 1] (by decide)⟩

/-- C3 counterexample: for the two-lane vector stencil loop `loopv` and
`max_carried_values = 2`, the transformed loop allocates a scratch
buffer of 4 elements (2 slots × 2 lanes), exceeding `k = 2`; the claim
that the total scratch element count is at most `k` is false. -/
theorem C3_cex_elements_exceed_k :
    (loop_carry loopv 2).map (fun s => (scratchAllocSizes s).sum) = some 4 ∧
    ¬ (4 : Nat) ≤ 2 := by
  constructor
  · decide
  · decide

/-- C3 (amended): the budget caps scratch *slots*, not elements: for
every 32-bit-int budget `k`, the total slot count (the sum of the kept
chain lengths) over all chains admitted by the trimming step of one
store run is at most `k`; each emitted allocation holds
`chain length × lanes` elements, so the element count can reach
`k × lanes`. -/
theorem C3_amended_slots_le (k : Nat) (chains : List (List Nat))
    (hk : k ≤ 2147483647) :
    ((trimChains k chains 0).map List.length).sum ≤ k := by
  have := trim_sum_aux k (by rw [SZ_eq]; omega) chains 0 (by omega)
  omega

/-- C3 amended witness: at `k = 2` the kept slots of the chain table
`[[0, 1]]` sum to two. -/
theorem C3_amended_witness :
    ((trimChains 2 [[0, 1]] 0).map List.length).sum ≤ 2 :=
  C3_amended_slots_le 2 [[0, 1]] (by decide)

/-- C1 (code bug): with `max_carried_values = 0`, trimming keeps an
empty chain (the `size_t` underflow of C10), and the synthesis then
reads `initial_scratch_values[0]` and `loads[c.front()]` on that empty
chain — an out-of-bounds access, modelled as `none`: the pass aborts
instead of producing a statement with the same behaviour as its input,
on a loop it transforms at any budget of at least two. -/
theorem C1_k0_out_of_bounds : loop_carry loop10 0 = none := by decide

/-- C2 counterexample: `loop0` is a serial loop whose extent is the
constant 0 — it contains no serial `For` with extent greater than one,
and so satisfies the claim\'s hypothesis — yet `loop_carry` transforms
it (the code\'s test is `extent not statically 1`, not `extent > 1`),
so the output is not structurally equal to the input. -/
theorem C2_cex_extent_zero :
    hasSerialForExtGT1 loop0 = false ∧ loop_carry loop0 8 ≠ some loop0 := by
  constructor
  · decide
  · decide

/-- C2 (amended): if `S` contains no serial `For` whose extent is other
than the constant one (the code\'s eligibility test), `loop_carry(S, k)`
is structurally equal to `S`; and on any statement in canonical block
form in which no load groups admit carries (no store run the rewriter
lifts has any carry edge), the per-loop rewriter returns its input
unchanged with no scratch allocations. -/
theorem C2_amended_identity (k : Nat) (cp : Expr → Bool) :
    (∀ S : Stmt, noEligibleFor S = true → loop_carry S k = some S) ∧
    (∀ (S : Stmt) (inCons : List String) (n : Nat), noEligibleFor S = true →
      lcMutate cp k inCons n S = some (S, n)) ∧
    (∀ (fuel : Nat) (inCons : List String) (lin : LinScope)
      (lets : List (String × Expr)) (m : Nat) (b : Stmt),
      blockCanonical b = true → noCarryRw cp inCons fuel lin b = true →
      rwMutate cp k inCons fuel lin lets m b = some (b, [], m)) := by
  refine ⟨?_, lc_identity cp k, ?_⟩
  · intro S h
    unfold loop_carry
    rw [lc_identity canProveModel k S [] 0 h]
    rfl
  · intro fuel inCons lin lets m b hc hno
    exact (rw_identity cp k inCons fuel).1 lin lets m b hc hno

/-- C2 amended witness: a single store with no loads is left unchanged
by the driver and by the rewriter. -/
theorem C2_amended_witness :
    loop_carry (Stmt.store "o" (Expr.intImm i32 1) (Expr.intImm i32 0) ct1) 3 =
      some (Stmt.store "o" (Expr.intImm i32 1) (Expr.intImm i32 0) ct1) ∧
    rwMutate canProveModel 3 [] 9 linX [] 0
      (Stmt.store "o" (Expr.intImm i32 1) (Expr.intImm i32 0) ct1) =
      some (Stmt.store "o" (Expr.intImm i32 1) (Expr.intImm i32 0) ct1, [], 0) := by
  constructor
  · exact (C2_amended_identity 3 canProveModel).1 _ (by decide)
  · exact (C2_amended_identity 3 canProveModel).2.2 9 [] linX [] 0 _ (by decide) (by decide)

/-- C6: for every ordered pair of distinct groups, a carry edge `j → i`
(the two-element chain `[j, i]`) is recorded by the detection loop iff
the buffer names agree, the stepped index of `j` is defined and matches
the index of `i` structurally or — at matching types — by the prover on
the CSE-normalized forms, and likewise for the predicates. -/
theorem C6_edge_recorded_iff (cp : Expr → Bool) (linear : LinScope)
    (groups : List (List Expr)) (c : List Nat) :
    c ∈ detectEdges cp (mkGroupInfos linear groups) ↔
      ∃ i j, i < groups.length ∧ j < groups.length ∧ i ≠ j ∧ c = [j, i] ∧
        specCarryEdge cp linear groups i j := by
  simp only [detectEdges, List.mem_flatMap, List.mem_filterMap, List.mem_enum_iff_get?]
  constructor
  · rintro ⟨p, hp, q, hq, hcond⟩
    simp only [mkGroupInfos, List.get?_map] at hp hq
    rcases Option.map_eq_some'.mp hp with ⟨gi, hgi, hgi2⟩
    rcases Option.map_eq_some'.mp hq with ⟨gj, hgj, hgj2⟩
    split_ifs at hcond with h1 h2
    refine ⟨p.1, q.1, ?_, ?_, h1, (Option.some_inj.mp hcond).symm, gi, gj, hgi, hgj, ?_⟩
    · exact (List.get?_eq_some.mp hgi).1
    · exact (List.get?_eq_some.mp hgj).1
    · have h3 := h2
      rw [← hgi2, ← hgj2] at h3
      exact ((edgeCond_true_iff cp linear gi gj).mp h3)
  · rintro ⟨i, j, hi, hj, hij, rfl, gi, gj, hgi, hgj, hspec⟩
    refine ⟨(i, mkGroupInfo linear gi), ?_, (j, mkGroupInfo linear gj), ?_, ?_⟩
    · simp only [mkGroupInfos, List.get?_map, hgi, Option.map_some']
    · simp only [mkGroupInfos, List.get?_map, hgj, Option.map_some']
    · have hcond : edgeCond cp (mkGroupInfo linear gi) (mkGroupInfo linear gj) = true :=
        (edgeCond_true_iff cp linear gi gj).mpr hspec
      simp [hij, hcond]

/-- C7 (counterexample): in a scope that tracks `y` with step 2 (as a
`let y = x + x` inside the loop produces), `is_linear` reports the step
2 for the expression `y`, yet substituting `v := v + 1` for every
tracked variable `v` and subtracting `e` gives an expression whose
value (here at the all-zero environment) is 1, not the step\'s value 2;
since simplification is value-preserving, that difference cannot
simplify to the reported step. -/
theorem C7_cex_nonunit_step :
    is_linear (Expr.var i32 "y") cexScope = some (Expr.intImm i32 2) ∧
    evalE (substPlusOneTracked cexScope (Expr.var i32 "y")) zeroEnv
        - evalE (Expr.var i32 "y") zeroEnv
      ≠ evalE (Expr.intImm i32 2) zeroEnv :=
  ⟨by decide, by decide⟩

/-- C7 (amended): the linearity analysis is sound for the advance that
the scope itself records: if `is_linear e scope = some s`, then
advancing every tracked variable by its own recorded step (step 1 for
the loop variable, but possibly another expression for `let`-bound
variables) changes the value of `e` by exactly the value of `s`. -/
theorem C7_amended_linear_sound (e : Expr) (scope : LinScope) (s : Expr)
    (h : is_linear e scope = some s) :
    ∀ ρ : String → Int, evalE e (stepEnv scope ρ) = evalE e ρ + evalE s ρ := by
  induction e generalizing s with
  | var t nm =>
      intro ρ
      rw [is_linear_var_eq] at h
      by_cases ht : (Expr.var t nm).typeOf ≠ i32
      · rw [if_pos ht] at h; simp at h
      · rw [if_neg ht] at h
        cases hg : scopeGet scope nm with
        | none =>
            rw [hg] at h
            injection h with h
            subst h
            simp [evalE, stepEnv, hg, makeZero]
        | some step =>
            rw [hg] at h
            cases step with
            | none => simp at h
            | some st =>
                injection h with h
                subst h
                simp [evalE, stepEnv, hg]
  | intImm t v =>
      intro ρ
      rw [is_linear_intImm_eq] at h
      by_cases ht : (Expr.intImm t v).typeOf ≠ i32
      · rw [if_pos ht] at h; simp at h
      · rw [if_neg ht] at h
        injection h with h
        subst h
        simp [evalE, makeZero]
  | add a b iha ihb =>
      intro ρ
      rw [is_linear_add_eq] at h
      by_cases ht : (Expr.add a b).typeOf ≠ i32
      · rw [if_pos ht] at h; simp at h
      · rw [if_neg ht] at h
        cases hla : is_linear a scope <;> cases hlb : is_linear b scope <;>
          rw [hla, hlb] at h
        · simp at h
        · rename_i xb
          by_cases hzb : isConstZero xb = true <;> simp [hzb] at h
        · rename_i xa
          by_cases hza : isConstZero xa = true <;> simp [hza] at h
        · rename_i xa xb
          by_cases hzb : isConstZero xb = true
          · simp only [Option.elim, hzb, if_true, if_pos] at h
            injection h with h
            subst h
            simp only [evalE]
            rw [iha xa hla ρ, ihb xb hlb ρ, evalE_constZero xb hzb ρ]
            ring
          · by_cases hza : isConstZero xa = true
            · simp only [Option.elim, hzb, hza, if_false, if_true, Bool.false_eq_true] at h
              injection h with h
              subst h
              simp only [evalE]
              rw [iha xa hla ρ, ihb xb hlb ρ, evalE_constZero xa hza ρ]
              ring
            · simp only [Option.elim, hzb, hza, if_false, Bool.false_eq_true] at h
              injection h with h
              subst h
              simp only [evalE]
              rw [iha xa hla ρ, ihb xb hlb ρ]
              ring
  | sub a b iha ihb =>
      intro ρ
      rw [is_linear_sub_eq] at h
      by_cases ht : (Expr.sub a b).typeOf ≠ i32
      · rw [if_pos ht] at h; simp at h
      · rw [if_neg ht] at h
        cases hla : is_linear a scope <;> cases hlb : is_linear b scope <;>
          rw [hla, hlb] at h
        · simp at h
        · rename_i xb
          by_cases hzb : isConstZero xb = true <;> simp [hzb] at h
        · rename_i xa
          simp only [Option.elim, Bool.false_eq_true, if_false] at h
          simp at h
        · rename_i xa xb
          by_cases hzb : isConstZero xb = true
          · simp only [Option.elim, hzb, if_true] at h
            injection h with h
            subst h
            simp only [evalE]
            rw [iha xa hla ρ, ihb xb hlb ρ, evalE_constZero xb hzb ρ]
            ring
          · simp only [Option.elim, hzb, Bool.false_eq_true, if_false] at h
            injection h with h
            subst h
            simp only [evalE]
            rw [iha xa hla ρ, ihb xb hlb ρ]
            ring
  | mul a b iha ihb =>
      intro ρ
      rw [is_linear_mul_eq] at h
      by_cases ht : (Expr.mul a b).typeOf ≠ i32
      · rw [if_pos ht] at h; simp at h
      · rw [if_neg ht] at h
        cases hla : is_linear a scope <;> cases hlb : is_linear b scope <;>
          rw [hla, hlb] at h
        · simp at h
        · rename_i xb
          by_cases hzb : isConstZero xb = true <;> simp [hzb] at h
        · rename_i xa
          by_cases hza : isConstZero xa = true <;> simp [hza] at h
        · rename_i xa xb
          by_cases hza : isConstZero xa = true <;> by_cases hzb : isConstZero xb = true
          · simp only [Option.elim, hza, hzb, Bool.and_self, if_true] at h
            injection h with h
            subst h
            simp only [evalE]
            rw [iha xa hla ρ, ihb xb hlb ρ, evalE_constZero xa hza ρ,
              evalE_constZero xb hzb ρ]
            ring
          · simp only [Option.elim, hza, hzb, Bool.true_and, Bool.false_eq_true,
              if_false, if_true] at h
            injection h with h
            subst h
            simp only [evalE]
            rw [iha xa hla ρ, ihb xb hlb ρ, evalE_constZero xa hza ρ]
            ring
          · simp only [Option.elim, hza, hzb, Bool.and_true, Bool.false_eq_true,
              if_false, if_true] at h
            injection h with h
            subst h
            simp only [evalE]
            rw [iha xa hla ρ, ihb xb hlb ρ, evalE_constZero xb hzb ρ]
            ring
          · simp only [Option.elim, hza, hzb, Bool.and_self, Bool.false_eq_true,
              if_false] at h
            simp at h
  | ramp base stride l ihb ihs =>
      intro ρ
      rw [is_linear_ramp_eq] at h
      by_cases ht : (Expr.ramp base stride l).typeOf ≠ i32
      · rw [if_pos ht] at h; simp at h
      · rw [if_neg ht] at h
        cases hls : is_linear stride scope <;> rw [hls] at h
        · simp at h
        · rename_i xb
          by_cases hzb : isConstZero xb = true
          · simp only [Option.elim, hzb, if_true] at h
            simp only [evalE]
            exact ihb s h ρ
          · simp [hzb] at h
  | broadcast v l ih =>
      intro ρ
      rw [is_linear_broadcast_eq] at h
      by_cases ht : (Expr.broadcast v l).typeOf ≠ i32
      · rw [if_pos ht] at h; simp at h
      · rw [if_neg ht] at h
        simp only [evalE]
        exact ih s h ρ
  | uintImm t v => intro ρ; simp [is_linear] at h
  | load t nm i p im pa ihi ihp => intro ρ; simp [is_linear] at h
  | letE nm v b ihv ihb => intro ρ; simp [is_linear] at h
  | call t nm args ih => intro ρ; simp [is_linear] at h
  | eqE a b iha ihb => intro ρ; simp [is_linear] at h
  | gtE a b iha ihb => intro ρ; simp [is_linear] at h
  | argNil => intro ρ; simp [is_linear] at h
  | argCons a rest iha ihr => intro ρ; simp [is_linear] at h

/-- Witness for the amended C7 theorem at a concrete linear expression
`x + 3` under the scope tracking `x` with step 1. -/
theorem C7_amended_witness :
    is_linear (Expr.add (Expr.var i32 "x") (Expr.intImm i32 3))
        [("x", some (Expr.intImm i32 1))] = some (Expr.intImm i32 1) ∧
    evalE (Expr.add (Expr.var i32 "x") (Expr.intImm i32 3))
        (stepEnv [("x", some (Expr.intImm i32 1))] zeroEnv) =
      evalE (Expr.add (Expr.var i32 "x") (Expr.intImm i32 3)) zeroEnv +
        evalE (Expr.intImm i32 1) zeroEnv :=
  ⟨by decide,
   C7_amended_linear_sound (Expr.add (Expr.var i32 "x") (Expr.intImm i32 3))
     [("x", some (Expr.intImm i32 1))] (Expr.intImm i32 1) (by decide) zeroEnv⟩

/-- C9: every load that the pass groups for carrying — and hence every
load any carry chain can reference, since chains are built of indices
into these groups — passes the safety filter: it reads a bound
immutable image, an input parameter, or a buffer in the in-consume set
at that point. Loads from any other buffer never enter a group. -/
theorem C9_carried_loads_safe (inConsume : List String) (s : Stmt) :
    ∀ g ∈ groupLoads inConsume (findLoadsStmt (subLetsStmt s)), ∀ l ∈ g,
      loadIsSafe inConsume l = true := by
  intro g hg l hl
  exact groupLoads_go_safe inConsume (findLoadsStmt (subLetsStmt s)) []
    (by intro g0 hg0; exact absurd hg0 (List.not_mem_nil g0)) g hg l hl

/-- Witness for C9 at the 2-tap stencil store: the group of `in[x]` is
produced by the grouping pass and its member is safe. -/
theorem C9_witness : loadIsSafe [] ld0 = true :=
  C9_carried_loads_safe [] st1 [ld0] (by decide) ld0 (by decide)

/-- C8 (counterexample): the claim promises that each original store is
still present with only its loads redirected to scratch; but the
rewriter works on the let-substituted form of the store run, so a store
whose value carries an expression-level `Let` reappears in the output
with the `Let` inlined.  The unique store to `out` in the transformed
run of `st8` has a value that no load-for-load redirection of `st8` can
produce: every such redirection keeps the value\'s outermost `Let`
node. -/
theorem C8_cex_let_inlined :
    exprTopIsLet (storeValue st8) = true ∧
    ((block_to_vector lifted8.1).filter
        (fun t => storeNames t = ["out"])).length = 1 ∧
    exprTopIsLet (storeValue (((block_to_vector lifted8.1).filter
        (fun t => storeNames t = ["out"])).headD st8)) = false ∧
    ∀ R : List (LoadShape × Expr),
      exprTopIsLet (storeValue (applyLoadRedirs R st8)) = true :=
  ⟨by decide, by decide, by decide,
   fun R => applyLoadRedirs_store_top_let R "out"
     (Expr.letE "t" (Expr.intImm i32 5)
       (Expr.add (Expr.var i32 "t") (Expr.add ld0 ld1))) vX ct1 rfl⟩

/-- C8 (amended): whenever `lift_carried_values` rewrites a store run,
its output splits as leading-edge scratch stores, then the core, then
the shuffle stores; the core is exactly the let-substituted original
with some whole-load-for-load redirections applied, so its stores keep
their buffer names and their relative order.  (When no carries are
found the run is returned unchanged.) -/
theorem C8_amended_stores_preserved
    (cp : Expr → Bool) (k : Nat) (ic : List String) (lin : LinScope)
    (lets : List (String × Expr)) (fresh : Nat) (s out : Stmt)
    (al : List ScratchAlloc) (n : Nat)
    (h : lift_carried_values cp k ic lin lets fresh s = some (out, al, n)) :
    out = s ∨
    ∃ R nf sh,
      (∀ p ∈ R, isLoad p.1 = true ∧ isLoad p.2 = true) ∧
      (∀ t ∈ nf, isStoreStmt t = true) ∧
      (∀ t ∈ sh, isStoreStmt t = true) ∧
      block_to_vector out =
        nf ++ block_to_vector (applyRedirs R (subLetsStmt s)) ++ sh ∧
      storeNames (applyRedirs R (subLetsStmt s)) = storeNames (subLetsStmt s) := by
  simp only [lift_carried_values] at h
  by_cases hempty : (detectEdges cp (mkGroupInfos lin
      (groupLoads ic (findLoadsStmt (subLetsStmt s))))).isEmpty = true
  · rw [if_pos hempty, Option.some_inj, Prod.mk.injEq] at h
    exact Or.inl h.1.symm
  · rw [if_neg hempty] at h
    simp only [Option.bind_eq_some, Option.some_inj, Prod.mk.injEq] at h
    obtain ⟨st, hfold, nfB, hnf, shB, hsh, hout0, hal, hn⟩ := h
    have Hg : ∀ g ∈ groupLoads ic (findLoadsStmt (subLetsStmt s)), ∀ x ∈ g,
        isLoad x = true :=
      groupLoads_pred (fun e => isLoad e = true) ic _
        (fun l hl => findLoadsStmt_loads _ l hl)
    obtain ⟨⟨R, hcore, hRl⟩, ⟨nf, hnf2, hnfs⟩, ⟨sh, hsh2, hshs⟩⟩ :=
      foldlM_synthChain_spec lets _ Hg _ ⟨subLetsStmt s, [], [], [], fresh⟩ st hfold
    simp only [List.nil_append] at hnf2 hsh2
    right
    refine ⟨R, nf, sh, hRl, hnfs, hshs, ?_, storeNames_applyRedirs R (subLetsStmt s)⟩
    have hout : out = blockMake2 (blockMake2 nfB st.core) shB := by
      rw [← hout0]; rfl
    rw [hout, btv_blockMake2, btv_blockMake2]
    have h1 : block_to_vector nfB = nf := by
      rw [btv_mkList st.notFirst nfB hnf, hnf2]
      exact flatMap_btv_nonblock nf (fun x hx => isStore_nonblock x (hnfs x hx))
    have h2 : block_to_vector shB = sh := by
      rw [btv_mkList st.shuffles shB hsh, hsh2]
      exact flatMap_btv_nonblock sh (fun x hx => isStore_nonblock x (hshs x hx))
    have h3 : st.core = applyRedirs R (subLetsStmt s) := hcore
    rw [h1, h2, h3, List.append_assoc]

/-- Witness for the amended C8 theorem at the rewritten run of `st8`. -/
theorem C8_amended_witness :
    lift_carried_values canProveModel 8 [] linX [] 0 st8 =
        some (lifted8.1, lifted8.2.1, lifted8.2.2) ∧
    (lifted8.1 = st8 ∨
      ∃ R nf sh,
        (∀ p ∈ R, isLoad p.1 = true ∧ isLoad p.2 = true) ∧
        (∀ t ∈ nf, isStoreStmt t = true) ∧
        (∀ t ∈ sh, isStoreStmt t = true) ∧
        block_to_vector lifted8.1 =
          nf ++ block_to_vector (applyRedirs R (subLetsStmt st8)) ++ sh ∧
        storeNames (applyRedirs R (subLetsStmt st8)) =
          storeNames (subLetsStmt st8)) :=
  ⟨by decide,
   C8_amended_stores_preserved canProveModel 8 [] linX [] 0 st8
     lifted8.1 lifted8.2.1 lifted8.2.2 (by decide)⟩

end HalideIR
